import Mathlib

/-!
Verification of the VDF launch-options patch engine of
`optiscaler_manager.py` (`_modify_vdf_launch_options`,
`_signal_steam_config_reload`, and the tail of
`apply_steam_launch_options`).

The Python text manipulation is embedded shallowly over `List Char`:
`str.find` becomes `pyFind`, the brace-counting loop becomes
`braceScanR`, the regex `"LaunchOptions"\s+("([^"\\]|\\.)*")` is
deterministic (its alternation branches are disjoint on the first
character and the whitespace run cannot backtrack into a quote), so
`re.search` / `re.sub` become the executable `matchLO` / `reSubLO`,
and `re.sub`'s processing of backslash escapes in the replacement
string becomes `processRepl`.  Machine strings are plain `List Char`;
a brace character is written with its `\x7b` / `\x7d` escape
throughout.
-/

/-- The Latin-1 part of Python's `\s` class for `str` patterns
(` `, TAB, LF, CR, VT, FF, FS, GS, RS, US, NEL, NBSP).  The source
document format is ASCII, and every whitespace character appearing in
the source's own strings is covered. -/
def isPySpace (c : Char) : Bool :=
  c = ' ' || c = '\t' || c = '\n' || c = '\r' || c = '\x0b' || c = '\x0c' ||
  c = '\x1c' || c = '\x1d' || c = '\x1e' || c = '\x1f' || c = '\x85' || c = '\xa0'

/-- Auxiliary scan for `str.find`: first index (counted from `i`) at
which `pat` is a prefix of the remaining text. -/
def pyFindAux (pat : List Char) : List Char → Nat → Option Nat
  | [], i => if pat.isPrefixOf ([] : List Char) then some i else none
  | s@(_ :: rest), i => if pat.isPrefixOf s then some i else pyFindAux pat rest (i + 1)

/-- Python `s.find(pat, start)`, with `None` for `-1`: the least index
`j ≥ start` such that `pat` occurs in `s` at `j`. -/
def pyFind (s pat : List Char) (start : Nat) : Option Nat :=
  pyFindAux pat (s.drop start) start

/-- The brace-counting loop of `_modify_vdf_launch_options`
(lines 1843-1852), relative form: scanning the text with a running
depth, `'\x7b'` increments, `'\x7d'` decrements and the scan stops at
the index where the depth reaches zero.  The depth is an `Int`, as in
Python, so stray closing braces drive it negative without stopping. -/
def braceScanR : List Char → Int → Option Nat
  | [], _ => none
  | c :: rest, depth =>
    if c = '\x7b' then (braceScanR rest (depth + 1)).map (· + 1)
    else if c = '\x7d' then
      (if depth = 1 then some 0 else (braceScanR rest (depth - 1)).map (· + 1))
    else (braceScanR rest depth).map (· + 1)

/-- Absolute position of the closing brace found by the brace scan
started at offset `b` of `s` with depth `0`. -/
def braceScan (s : List Char) (b : Nat) : Option Nat :=
  (braceScanR (s.drop b) 0).map (b + ·)

/-- The literal `"apps"` searched for at line 1821. -/
def appsLit : List Char := "\"apps\"".toList

/-- The quoted app-id pattern `f'"{app_id}"'` of line 1827. -/
def appPat (appId : List Char) : List Char := '"' :: appId ++ ['"']

/-- The quoted literal `"LaunchOptions"` heading the field regex of
line 1863. -/
def loLit : List Char := "\"LaunchOptions\"".toList

/-- Single-character `str.replace`: every occurrence of `old` becomes
the string `new`. -/
def replaceChar (old : Char) (new : List Char) : List Char → List Char
  | [] => []
  | c :: rest => (if c = old then new else [c]) ++ replaceChar old new rest

/-- Line 1868: `launch_command.replace('\\', '\\\\').replace('"', '\\"')` —
backslashes doubled first, then quotes prefixed with a backslash. -/
def escape (cmd : List Char) : List Char :=
  replaceChar '"' ['\\', '"'] (replaceChar '\\' ['\\', '\\'] cmd)

/-- Length of the value body matched by `([^"\\]|\\.)*` before the
closing quote: a backslash consumes the next character unless it is a
newline (Python `.` does not match `\n`); an unescaped quote closes;
`none` when no closing quote is reachable, in which case the regex
backtracking also fails, because every restart position holds a
non-quote character. -/
def scanVal : List Char → Option Nat
  | [] => none
  | '"' :: _ => some 0
  | '\\' :: [] => none
  | '\\' :: d :: rest => if d = '\n' then none else (scanVal rest).map (· + 2)
  | _ :: rest => (scanVal rest).map (· + 1)

/-- Length of the maximal whitespace run at the head of the text
(the greedy `\s+`, which cannot backtrack into the following quote). -/
def wsLen : List Char → Nat
  | [] => 0
  | c :: rest => if isPySpace c then wsLen rest + 1 else 0

/-- Length of the match of `"LaunchOptions"\s+("([^"\\]|\\.)*")` at the
head of `s`, or `none`. -/
def matchLO (s : List Char) : Option Nat :=
  if loLit.isPrefixOf s then
    let t := s.drop loLit.length
    let w := wsLen t
    if w = 0 then none
    else
      match t.drop w with
      | [] => none
      | c :: v =>
        if c = '"' then
          match scanVal v with
          | some n => some (loLit.length + w + 1 + n + 1)
          | none => none
        else none
  else none

/-- Structural engine for `re.sub`: in state `k+1` the scanner is
skipping the remaining characters of a match already replaced; in
state `0` it tries a match at the current position, emits the
replacement and skips the matched characters on success, and copies
one character otherwise.  This is `re.sub`'s left-to-right,
non-overlapping replacement of every match (the pattern never matches
the empty string). -/
def reSubAux (r : List Char) : List Char → Nat → List Char
  | [], _ => []
  | _ :: rest, k + 1 => reSubAux r rest k
  | s@(c :: rest), 0 =>
    match matchLO s with
    | some len => r ++ reSubAux r rest (len - 1)
    | none => c :: reSubAux r rest 0

/-- `re.sub(launch_options_pattern, r, s)` (line 1874): replace every
match with the processed replacement `r`. -/
def reSubLO (r s : List Char) : List Char :=
  reSubAux r s 0

/-- `re.search(launch_options_pattern, s) is not None` (line 1865). -/
def hasLO : List Char → Bool
  | [] => false
  | s@(_ :: rest) => (matchLO s).isSome || hasLO rest

/-- `re.sub`'s processing of backslash escapes in the replacement
string: `\\` collapses to a single backslash, any other backslash pair
is left as written.  In the replacement strings the source ever
builds (`'"LaunchOptions"\t\t"' + escaped + '"'`) a backslash is always
followed by a backslash or a quote, so this agrees exactly with
Python, which would reject `\`+letter and treat `\`+digit as a group
reference. -/
def processRepl : List Char → List Char
  | [] => []
  | [c] => [c]
  | c :: d :: rest =>
    if c = '\\' then
      if d = '\\' then '\\' :: processRepl rest else '\\' :: d :: processRepl rest
    else c :: processRepl (d :: rest)

/-- The anchor keys of line 1884, in iteration order. -/
def anchorKeys : List (List Char) :=
  ["\"name\"".toList, "\"LastUpdated\"".toList, "\"SizeOnDisk\"".toList, "\"tool\"".toList]

/-- One step of the insertion-point loop (lines 1887-1893): if the key
occurs and a newline follows its first occurrence, the insertion point
moves just past that newline. -/
def anchorStep (content : List Char) (pos : Nat) (key : List Char) : Nat :=
  match pyFind content key 0 with
  | none => pos
  | some kp =>
    match pyFind content ['\n'] kp with
    | none => pos
    | some le => le + 1

/-- The insertion offset computed by the loop over `insertion_keys`,
starting from `0`. -/
def insertionPos (content : List Char) : Nat :=
  anchorKeys.foldl (anchorStep content) 0

/-- The insertion point one anchor key contributes (the body of the
loop of lines 1887-1893, written as a partial function): the position
just past the first newline after the key's first occurrence, when the
key occurs and such a newline exists. -/
def anchorPoint (content key : List Char) : Option Nat :=
  (pyFind content key 0).bind fun kp => (pyFind content ['\n'] kp).map (· + 1)

/-- The fixed indentation of line 1896: six tabs. -/
def indent6 : List Char := ['\t', '\t', '\t', '\t', '\t', '\t']

/-- `f'"LaunchOptions"\t\t"{escaped_command}"'` (lines 1873/1899
without the insert path's indent and newline). -/
def launchLine (esc : List Char) : List Char :=
  loLit ++ ('\t' :: '\t' :: '"' :: (esc ++ ['"']))

/-- The full inserted line of line 1899: indent, field, newline. -/
def insLine (esc : List Char) : List Char :=
  indent6 ++ (launchLine esc ++ ['\n'])

/-- Lines 1821-1856: find `"apps"`, find the quoted app id after it,
find the first `\x7b` after that, brace-scan to the matching `\x7d`.
Returns the opening- and closing-brace offsets `(B, E)`; the record
interior is `doc[B+1:E]`. -/
def locateApp (doc appId : List Char) : Option (Nat × Nat) := do
  let a ← pyFind doc appsLit 0
  let s ← pyFind doc (appPat appId) a
  let b ← pyFind doc ['\x7b'] s
  let e ← braceScan doc b
  pure (b, e)

/-- The pure document transformation of `_modify_vdf_launch_options`
(lines 1821-1904): locate the record, then either substitute every
match of the LaunchOptions regex with the processed replacement, or
splice the new launch-options line in at the anchor-determined offset.
Returns the new document and the `wasInsert` flag. -/
def modifyVdfCore (doc appId cmd : List Char) : Option (List Char × Bool) := do
  let (b, e) ← locateApp doc appId
  let content := (doc.take e).drop (b + 1)
  let esc := escape cmd
  if hasLO content then
    let newContent := reSubLO (processRepl (launchLine esc)) content
    pure (doc.take (b + 1) ++ newContent ++ doc.drop e, false)
  else
    let k := insertionPos content
    let newContent := content.take k ++ insLine esc ++ content.drop k
    pure (doc.take (b + 1) ++ newContent ++ doc.drop e, true)

/-- On-disk state around one invocation: the target file's content,
the backup sibling, the staged temporary file. -/
structure VdfFs where
  orig : List Char
  backup : Option (List Char)
  temp : Option (List Char)
deriving DecidableEq

/-- Failure injection for the commit steps: `shutil.copy2` for the
backup may fail (line 1912, logged and ignored), staging of the
temporary file may fail (lines 1917-1919, aborts before the atomic
`os.replace`). -/
structure IoEnv where
  backupFails : Bool
  stageFails : Bool
deriving DecidableEq

/-- Lines 1815-1951 as a state transformer on `VdfFs`, given that the
file currently holds `doc`: a locate failure returns before any
filesystem action; otherwise the backup is attempted (failure only
warns), the temporary file is staged (failure aborts before
`os.replace`, and the `finally` block removes the temporary file), the
atomic replace installs the new text, and the verification re-read
checks that the quoted app id and the escaped command occur in the
replaced file. -/
def runModify (env : IoEnv) (doc appId cmd : List Char) : Bool × VdfFs :=
  match modifyVdfCore doc appId cmd with
  | none => (false, ⟨doc, none, none⟩)
  | some (newDoc, _) =>
    let bk : Option (List Char) := if env.backupFails then none else some doc
    if env.stageFails then
      (false, ⟨doc, bk, none⟩)
    else
      let verified := (pyFind newDoc (appPat appId) 0).isSome &&
        (pyFind newDoc (escape cmd) 0).isSome
      (verified, ⟨newDoc, bk, none⟩)

/-- Failure injection for `_signal_steam_config_reload`: the
`os.utime` touch, the `pgrep` lookup, and the `kill -HUP` may each
fail. -/
structure SigEnv where
  utimeFails : Bool
  pgrepFails : Bool
  killFails : Bool
deriving DecidableEq

/-- The body of `_signal_steam_config_reload` (lines 1959-1991) before
its outer `except`: the utime step may raise; the process-signalling
step is wrapped in its own inner `try`/`except: pass`, so its failures
are swallowed locally. -/
def signalBody (e : SigEnv) : Except Unit Unit := do
  if e.utimeFails then throw () else pure ()
  let inner : Except Unit Unit :=
    if e.pgrepFails then throw ()
    else if e.killFails then throw () else pure ()
  match inner with
  | .ok _ => pure ()
  | .error _ => pure ()

/-- `_signal_steam_config_reload` (lines 1957-1995): the whole body
sits in a `try` whose `except` only prints a note, so every failure is
swallowed. -/
def signalReload (e : SigEnv) : Except Unit Unit :=
  match signalBody e with
  | .ok u => .ok u
  | .error _ => .ok ()

/-- The tail of `apply_steam_launch_options` (lines 1795-1809): after
a successful commit, the reload signal is sent when Steam is running
and `True` is returned; a failed commit returns `False`. -/
def applyTail (success steamRunning : Bool) (e : SigEnv) : Except Unit Bool := do
  if success then
    if steamRunning then
      let _ ← signalReload e
      pure true
    else pure true
  else pure false

/-- Modelled from the spec: the source defines only the encoder (line
1868); the Escape Codec's `decode` direction of §4.4 has no function
in `src/`.  Following the spec's words — escaped characters are
limited to `\"` and `\\` — the decoder rewrites `\\` to a single
backslash and `\"` to a quote, copying everything else. -/
def decode : List Char → List Char
  | [] => []
  | [c] => [c]
  | c :: d :: rest =>
    if c = '\\' ∧ (d = '\\' ∨ d = '"') then d :: decode rest
    else c :: decode (d :: rest)

theorem decode_two_bs (r : List Char) : decode ('\\' :: '\\' :: r) = '\\' :: decode r := by
  simp [decode]

theorem decode_bs_quote (r : List Char) : decode ('\\' :: '"' :: r) = '"' :: decode r := by
  simp [decode]

theorem decode_cons_ne (c : Char) (rest : List Char) (h : c ≠ '\\') :
    decode (c :: rest) = c :: decode rest := by
  cases rest with
  | nil => rfl
  | cons d ds => simp [decode, h]

theorem replaceChar_append (old : Char) (new : List Char) (x y : List Char) :
    replaceChar old new (x ++ y) = replaceChar old new x ++ replaceChar old new y := by
  induction x with
  | nil => rfl
  | cons c rest ih => simp [replaceChar, ih]

theorem escape_cons (c : Char) (cs : List Char) :
    escape (c :: cs) =
      (if c = '\\' then ['\\', '\\'] else if c = '"' then ['\\', '"'] else [c]) ++ escape cs := by
  by_cases h1 : c = '\\'
  · subst h1
    simp [escape, replaceChar, replaceChar_append]
  · by_cases h2 : c = '"'
    · subst h2
      simp [escape, replaceChar, replaceChar_append]
    · simp [escape, replaceChar, replaceChar_append, h1, h2]

theorem decode_escape (cmd : List Char) : decode (escape cmd) = cmd := by
  induction cmd with
  | nil => rfl
  | cons c rest ih =>
    rw [escape_cons]
    by_cases h1 : c = '\\'
    · subst h1
      simpa [decode_two_bs] using ih
    · by_cases h2 : c = '"'
      · subst h2
        simpa [decode_bs_quote] using ih
      · simpa [h1, h2, decode_cons_ne c _ h1] using ih

/-- C4: the encoding applied to the launch command escapes backslashes
first and double quotes second — it is exactly the quote substitution
composed after the backslash substitution — and the decoder modelled
from the spec is a left inverse: `decode (escape x) = x` for every
string `x`, including arbitrary combinations of quotes and
backslashes. -/
theorem c4_escape_codec_roundtrip (cmd : List Char) :
    escape cmd = replaceChar '"' ['\\', '"'] (replaceChar '\\' ['\\', '\\'] cmd) ∧
    decode (escape cmd) = cmd :=
  ⟨rfl, decode_escape cmd⟩

/-- C9: the reload notification never propagates a failure — whatever
combination of the utime touch, the process lookup and the signal
fails, `signalReload` returns normally — and a commit already reported
successful stays successful regardless of the notification
environment. -/
theorem c9_reload_signal_nonfatal :
    (∀ e : SigEnv, signalReload e = Except.ok ()) ∧
    (∀ (e : SigEnv) (sr : Bool), applyTail true sr e = Except.ok true) := by
  constructor
  · intro e
    rcases e with ⟨u, p, k⟩
    cases u <;> cases p <;> cases k <;> rfl
  · intro e sr
    rcases e with ⟨u, p, k⟩
    cases sr <;> cases u <;> cases p <;> cases k <;> rfl

/-- C6: when the apps section or the quoted app id is absent the
operation returns failure with the original file untouched and no
backup or temporary file created; and whenever staging the temporary
file fails the original file is untouched and no temporary file is
left behind. -/
theorem c6_early_failure_atomicity (env : IoEnv) (doc appId cmd : List Char) :
    ((pyFind doc appsLit 0 = none ∨
        (∃ a, pyFind doc appsLit 0 = some a ∧ pyFind doc (appPat appId) a = none)) →
      runModify env doc appId cmd = (false, ⟨doc, none, none⟩)) ∧
    (env.stageFails = true →
      (runModify env doc appId cmd).2.orig = doc ∧
        (runModify env doc appId cmd).2.temp = none) := by
  constructor
  · intro h
    have hcore : modifyVdfCore doc appId cmd = none := by
      unfold modifyVdfCore locateApp
      rcases h with h | ⟨a, ha, hs⟩
      · simp [h]
      · simp [ha, hs]
    simp [runModify, hcore]
  · intro hs
    unfold runModify
    cases hcore : modifyVdfCore doc appId cmd with
    | none => simp
    | some p =>
      rcases p with ⟨nd, w⟩
      simp [hs]

/-- Closed instance of `c6_early_failure_atomicity`: a document with
no apps section is rejected with the filesystem state untouched, and a
staging failure on a patchable document leaves the original content in
place. -/
theorem c6_early_failure_atomicity_witness :
    runModify ⟨false, false⟩ "\"x\"".toList "1".toList "h".toList =
      (false, ⟨"\"x\"".toList, none, none⟩) ∧
    (runModify ⟨false, true⟩ "\"apps\"\x7b\"1\"\x7b\n\x7d\x7d".toList "1".toList "h".toList).2.orig =
      "\"apps\"\x7b\"1\"\x7b\n\x7d\x7d".toList :=
  ⟨(c6_early_failure_atomicity ⟨false, false⟩ "\"x\"".toList "1".toList "h".toList).1
      (Or.inl (by decide)),
   ((c6_early_failure_atomicity ⟨false, true⟩ "\"apps\"\x7b\"1\"\x7b\n\x7d\x7d".toList
      "1".toList "h".toList).2 rfl).1⟩

/-- C1 fails as stated: on a record with no existing field and the
launch command `a\b`, the first application inserts the value escaped
as `a\\b`, but the second application routes through `re.sub`, whose
replacement-string processing collapses `\\` to `\`, yielding a
different document. -/
theorem c1_counterexample :
    modifyVdfCore "\"apps\"\x7b\"1\"\x7b\n\x7d\x7d".toList "1".toList "a\\b".toList =
      some ("\"apps\"\x7b\"1\"\x7b\t\t\t\t\t\t\"LaunchOptions\"\t\t\"a\\\\b\"\n\n\x7d\x7d".toList,
        true) ∧
    modifyVdfCore
        "\"apps\"\x7b\"1\"\x7b\t\t\t\t\t\t\"LaunchOptions\"\t\t\"a\\\\b\"\n\n\x7d\x7d".toList
        "1".toList "a\\b".toList =
      some ("\"apps\"\x7b\"1\"\x7b\t\t\t\t\t\t\"LaunchOptions\"\t\t\"a\\b\"\n\n\x7d\x7d".toList,
        false) ∧
    "\"apps\"\x7b\"1\"\x7b\t\t\t\t\t\t\"LaunchOptions\"\t\t\"a\\\\b\"\n\n\x7d\x7d".toList ≠
      "\"apps\"\x7b\"1\"\x7b\t\t\t\t\t\t\"LaunchOptions\"\t\t\"a\\b\"\n\n\x7d\x7d".toList := by
  refine ⟨by decide, by decide, by decide⟩

/-- C2 fails as stated: a field written as `"LaunchOptions" "old"`
(key and value separated by a single space) is rewritten with two tabs
as separator, not with the original whitespace preserved. -/
theorem c2_counterexample :
    modifyVdfCore "\"apps\"\x7b\"1\"\x7b\"LaunchOptions\" \"old\"\x7d\x7d".toList
        "1".toList "hi".toList =
      some ("\"apps\"\x7b\"1\"\x7b\"LaunchOptions\"\t\t\"hi\"\x7d\x7d".toList, false) ∧
    "\"apps\"\x7b\"1\"\x7b\"LaunchOptions\"\t\t\"hi\"\x7d\x7d".toList ≠
      "\"apps\"\x7b\"1\"\x7b\"LaunchOptions\" \"hi\"\x7d\x7d".toList := by
  refine ⟨by decide, by decide⟩

/-- C3 fails as stated: in a record containing none of the anchor
fields, the new field is inserted at the very beginning of the
record's interior (immediately after the opening brace), not appended
just before the record's closing boundary. -/
theorem c3_counterexample :
    modifyVdfCore "\"apps\"\x7b\"1\"\x7b\n\t\"x\" \"y\"\n\x7d\x7d".toList
        "1".toList "h".toList =
      some
        ("\"apps\"\x7b\"1\"\x7b\t\t\t\t\t\t\"LaunchOptions\"\t\t\"h\"\n\n\t\"x\" \"y\"\n\x7d\x7d".toList,
        true) ∧
    "\"apps\"\x7b\"1\"\x7b\t\t\t\t\t\t\"LaunchOptions\"\t\t\"h\"\n\n\t\"x\" \"y\"\n\x7d\x7d".toList ≠
      "\"apps\"\x7b\"1\"\x7b\n\t\"x\" \"y\"\n\t\t\t\t\t\t\"LaunchOptions\"\t\t\"h\"\n\x7d\x7d".toList := by
  refine ⟨by decide, by decide⟩

/-- C7 fails as stated: in `"apps" "1" x \x7b\x7d` the first
occurrence of the quoted app id (at offset 7) is followed — modulo
whitespace — by the letter `x`, not by an opening brace, yet the
operation succeeds and patches the later brace block instead of
reporting not-found. -/
theorem c7_counterexample :
    pyFind "\"apps\" \"1\" x \x7b\x7d".toList (appPat "1".toList) 0 = some 7 ∧
    ("\"apps\" \"1\" x \x7b\x7d".toList.drop 10).take 2 = [' ', 'x'] ∧
    isPySpace 'x' = false ∧
    modifyVdfCore "\"apps\" \"1\" x \x7b\x7d".toList "1".toList "h".toList =
      some ("\"apps\" \"1\" x \x7b\t\t\t\t\t\t\"LaunchOptions\"\t\t\"h\"\n\x7d".toList, true) := by
  refine ⟨by decide, by decide, by decide, by decide⟩

/-- C8 fails as stated: with the field occurring twice in the record,
the substitution replaces both occurrences — the original second value
`"b"` is no longer present in the output. -/
theorem c8_counterexample :
    modifyVdfCore
        "\"apps\"\x7b\"1\"\x7b\"LaunchOptions\" \"a\" \"LaunchOptions\" \"b\"\x7d\x7d".toList
        "1".toList "h".toList =
      some
        ("\"apps\"\x7b\"1\"\x7b\"LaunchOptions\"\t\t\"h\" \"LaunchOptions\"\t\t\"h\"\x7d\x7d".toList,
        false) ∧
    pyFind
        "\"apps\"\x7b\"1\"\x7b\"LaunchOptions\" \"a\" \"LaunchOptions\" \"b\"\x7d\x7d".toList
        "\"b\"".toList 0 ≠ none ∧
    pyFind
        "\"apps\"\x7b\"1\"\x7b\"LaunchOptions\"\t\t\"h\" \"LaunchOptions\"\t\t\"h\"\x7d\x7d".toList
        "\"b\"".toList 0 = none := by
  refine ⟨by decide, by decide, by decide⟩

/-- C10 fails as stated: the input document has balanced braces and
the command `h` contains none, but replacing a field whose matched
value is `"\x7b"` removes that brace, leaving the output unbalanced. -/
theorem c10_counterexample :
    ("\"apps\"\x7b\"1\"\x7b\"LaunchOptions\" \"\x7b\" \"x\" \x7d\x7d\x7d".toList.count '\x7b' =
      "\"apps\"\x7b\"1\"\x7b\"LaunchOptions\" \"\x7b\" \"x\" \x7d\x7d\x7d".toList.count '\x7d') ∧
    ('\x7b' ∉ "h".toList ∧ '\x7d' ∉ "h".toList) ∧
    modifyVdfCore "\"apps\"\x7b\"1\"\x7b\"LaunchOptions\" \"\x7b\" \"x\" \x7d\x7d\x7d".toList
        "1".toList "h".toList =
      some ("\"apps\"\x7b\"1\"\x7b\"LaunchOptions\"\t\t\"h\" \"x\" \x7d\x7d\x7d".toList, false) ∧
    ¬ ("\"apps\"\x7b\"1\"\x7b\"LaunchOptions\"\t\t\"h\" \"x\" \x7d\x7d\x7d".toList.count '\x7b' =
      "\"apps\"\x7b\"1\"\x7b\"LaunchOptions\"\t\t\"h\" \"x\" \x7d\x7d\x7d".toList.count '\x7d') := by
  refine ⟨by decide, by decide, by decide, by decide⟩

theorem isPrefixOf_iff_take (pat : List Char) :
    ∀ s : List Char, pat.isPrefixOf s = true ↔ s.take pat.length = pat := by
  induction pat with
  | nil => intro s; simp [List.isPrefixOf]
  | cons a as ih =>
    intro s
    cases s with
    | nil => simp [List.isPrefixOf]
    | cons b bs =>
      simp only [List.isPrefixOf, Bool.and_eq_true, beq_iff_eq, List.length_cons,
        List.take_succ_cons, List.cons.injEq, ih]
      tauto

theorem pyFindAux_spec (pat : List Char) :
    ∀ (s : List Char) (i j : Nat), pyFindAux pat s i = some j →
      ∃ m, j = i + m ∧ pat.isPrefixOf (s.drop m) = true ∧
        ∀ m', m' < m → ¬ pat.isPrefixOf (s.drop m') = true := by
  intro s
  induction s with
  | nil =>
    intro i j h
    by_cases hp : pat.isPrefixOf ([] : List Char) = true
    · refine ⟨0, ?_, by simpa using hp, by omega⟩
      simp [pyFindAux, hp] at h
      omega
    · simp [pyFindAux, hp] at h
  | cons c rest ih =>
    intro i j h
    by_cases hp : pat.isPrefixOf (c :: rest) = true
    · refine ⟨0, ?_, by simpa using hp, by omega⟩
      simp [pyFindAux, hp] at h
      omega
    · rw [pyFindAux, if_neg hp] at h
      obtain ⟨m, hm, hpre, hmin⟩ := ih (i + 1) j h
      refine ⟨m + 1, by omega, by simpa using hpre, ?_⟩
      intro m' hm'
      cases m' with
      | zero => simpa using hp
      | succ m'' => simpa using hmin m'' (by omega)

theorem pyFindAux_of_first (pat : List Char) :
    ∀ (s : List Char) (i m : Nat), pat.isPrefixOf (s.drop m) = true →
      (∀ m', m' < m → ¬ pat.isPrefixOf (s.drop m') = true) →
      pyFindAux pat s i = some (i + m) := by
  intro s
  induction s with
  | nil =>
    intro i m hpre hmin
    have hm0 : m = 0 := by
      by_contra hne
      exact hmin 0 (by omega) (by simpa using hpre)
    subst hm0
    simp only [List.drop_nil] at hpre
    simp [pyFindAux, hpre]
  | cons c rest ih =>
    intro i m hpre hmin
    cases m with
    | zero =>
      simp only [List.drop_zero] at hpre
      simp [pyFindAux, hpre]
    | succ m' =>
      have hp : ¬ pat.isPrefixOf (c :: rest) = true := by
        simpa using hmin 0 (by omega)
      rw [pyFindAux, if_neg hp]
      have := ih (i + 1) m' (by simpa using hpre)
        (fun m'' h'' => by simpa using hmin (m'' + 1) (by omega))
      rw [this]
      congr 1
      omega

theorem pyFindAux_none (pat : List Char) :
    ∀ (s : List Char) (i : Nat), pyFindAux pat s i = none ↔
      ∀ m, ¬ pat.isPrefixOf (s.drop m) = true := by
  intro s
  induction s with
  | nil =>
    intro i
    constructor
    · intro h m
      by_cases hp : pat.isPrefixOf ([] : List Char) = true
      · simp [pyFindAux, hp] at h
      · simpa using hp
    · intro h
      have := h 0
      simp only [List.drop_nil] at this
      simp [pyFindAux, this]
  | cons c rest ih =>
    intro i
    constructor
    · intro h m
      by_cases hp : pat.isPrefixOf (c :: rest) = true
      · simp [pyFindAux, hp] at h
      · rw [pyFindAux, if_neg hp] at h
        cases m with
        | zero => simpa using hp
        | succ m' => simpa using (ih (i + 1)).mp h m'
    · intro h
      have hp : ¬ pat.isPrefixOf (c :: rest) = true := by simpa using h 0
      rw [pyFindAux, if_neg hp]
      exact (ih (i + 1)).mpr fun m => by simpa using h (m + 1)

theorem pyFind_spec (s pat : List Char) (start j : Nat) (h : pyFind s pat start = some j) :
    start ≤ j ∧ pat.isPrefixOf (s.drop j) = true ∧
      ∀ t, start ≤ t → t < j → ¬ pat.isPrefixOf (s.drop t) = true := by
  obtain ⟨m, hm, hpre, hmin⟩ := pyFindAux_spec pat (s.drop start) start j h
  subst hm
  rw [List.drop_drop] at hpre
  refine ⟨by omega, hpre, ?_⟩
  intro t h1 h2
  have := hmin (t - start) (by omega)
  rw [List.drop_drop] at this
  have ht : start + (t - start) = t := by omega
  rwa [ht] at this

theorem pyFind_of_first (s pat : List Char) (start j : Nat)
    (hsj : start ≤ j) (hpre : pat.isPrefixOf (s.drop j) = true)
    (hmin : ∀ t, start ≤ t → t < j → ¬ pat.isPrefixOf (s.drop t) = true) :
    pyFind s pat start = some j := by
  have h1 : pat.isPrefixOf ((s.drop start).drop (j - start)) = true := by
    rw [List.drop_drop]
    have : start + (j - start) = j := by omega
    rwa [this]
  have h2 : ∀ m', m' < j - start → ¬ pat.isPrefixOf ((s.drop start).drop m') = true := by
    intro m' hm'
    rw [List.drop_drop]
    exact hmin (start + m') (by omega) (by omega)
  have := pyFindAux_of_first pat (s.drop start) start (j - start) h1 h2
  rw [pyFind, this]
  congr 1
  omega

theorem pyFind_none (s pat : List Char) (start : Nat) :
    pyFind s pat start = none ↔ ∀ m, start ≤ m → ¬ pat.isPrefixOf (s.drop m) = true := by
  rw [pyFind, pyFindAux_none]
  constructor
  · intro h m hm
    have := h (m - start)
    rw [List.drop_drop] at this
    have hms : start + (m - start) = m := by omega
    rwa [hms] at this
  · intro h m
    rw [List.drop_drop]
    exact h (start + m) (by omega)

theorem take_window (s : List Char) (m k n : Nat) (h : m + k ≤ n) :
    ((s.take n).drop m).take k = (s.drop m).take k := by
  rw [List.drop_take, List.take_take]
  congr 1
  omega

theorem prefixOf_congr_window (s s' pat : List Char) (m n : Nat)
    (htake : s.take n = s'.take n) (h : m + pat.length ≤ n) :
    (pat.isPrefixOf (s.drop m) = true ↔ pat.isPrefixOf (s'.drop m) = true) := by
  rw [isPrefixOf_iff_take, isPrefixOf_iff_take,
    ← take_window s m pat.length n h, ← take_window s' m pat.length n h, htake]

theorem pyFind_congr (s s' pat : List Char) (start j n : Nat)
    (htake : s.take n = s'.take n) (hj : j + pat.length ≤ n)
    (h : pyFind s pat start = some j) : pyFind s' pat start = some j := by
  obtain ⟨h1, h2, h3⟩ := pyFind_spec s pat start j h
  refine pyFind_of_first s' pat start j h1
    ((prefixOf_congr_window s s' pat j n htake hj).mp h2) ?_
  intro t ht1 ht2
  rw [← prefixOf_congr_window s s' pat t n htake (by omega)]
  exact h3 t ht1 ht2

theorem getElem?_of_occ (pat s : List Char) (j t : Nat)
    (hpre : pat.isPrefixOf (s.drop j) = true) (h1 : j ≤ t) (h2 : t < j + pat.length) :
    s[t]? = pat[t - j]? := by
  rw [isPrefixOf_iff_take] at hpre
  have := congrArg (fun l => l[t - j]?) hpre
  simp only [List.getElem?_take, List.getElem?_drop] at this
  rw [if_pos (by omega)] at this
  have hjt : j + (t - j) = t := by omega
  rwa [hjt] at this

theorem occ_before_char (pat s : List Char) (j b : Nat) (c : Char)
    (hpre : pat.isPrefixOf (s.drop j) = true) (hjb : j ≤ b)
    (hb : s[b]? = some c) (hc : c ∉ pat) : j + pat.length ≤ b := by
  by_contra hcon
  push_neg at hcon
  have h := getElem?_of_occ pat s j b hpre hjb hcon
  rw [hb] at h
  exact hc (List.getElem?_mem h.symm)

theorem occ_lt_length (pat s : List Char) (j : Nat) (hne : pat ≠ [])
    (hpre : pat.isPrefixOf (s.drop j) = true) : j < s.length := by
  by_contra hcon
  push_neg at hcon
  rw [List.drop_eq_nil_of_le hcon] at hpre
  cases pat with
  | nil => exact hne rfl
  | cons a as => simp [List.isPrefixOf] at hpre

theorem occ_len_le (pat s : List Char) (j : Nat) (hne : pat ≠ [])
    (hpre : pat.isPrefixOf (s.drop j) = true) : j + pat.length ≤ s.length := by
  have hlt : j < s.length := occ_lt_length pat s j hne hpre
  rw [isPrefixOf_iff_take] at hpre
  have hlen := congrArg List.length hpre
  simp only [List.length_take, List.length_drop] at hlen
  have hle : pat.length ≤ s.length - j := by
    rw [← hlen]
    exact Nat.min_le_right _ _
  omega

theorem pyFind_char_get (s : List Char) (c : Char) (start b : Nat)
    (h : pyFind s [c] start = some b) : s[b]? = some c := by
  obtain ⟨-, h2, -⟩ := pyFind_spec s [c] start b h
  have := getElem?_of_occ [c] s b b h2 (by omega) (by simp)
  simpa using this

/-- Net brace contribution of a text: occurrences of `\x7b` minus
occurrences of `\x7d`. -/
def ddelta (s : List Char) : Int :=
  (s.count '\x7b' : Int) - (s.count '\x7d' : Int)

theorem ddelta_nil : ddelta [] = 0 := by simp [ddelta]

theorem ddelta_cons (c : Char) (s : List Char) :
    ddelta (c :: s) =
      (if c = '\x7b' then 1 else if c = '\x7d' then -1 else 0) + ddelta s := by
  by_cases h1 : c = '\x7b'
  · subst h1
    simp [ddelta, List.count_cons]
    ring
  · by_cases h2 : c = '\x7d'
    · subst h2
      simp [ddelta, List.count_cons, h1]
      ring
    · simp [ddelta, List.count_cons, h1, h2]

theorem ddelta_append (x y : List Char) : ddelta (x ++ y) = ddelta x + ddelta y := by
  simp [ddelta, List.count_append]
  ring

theorem braceScanR_sound :
    ∀ (s : List Char) (d : Int) (e : Nat), braceScanR s d = some e →
      e < s.length ∧ s[e]? = some '\x7d' ∧ d + ddelta (s.take e) = 1 ∧
        ∀ k, k < e → ¬ (s[k]? = some '\x7d' ∧ d + ddelta (s.take k) = 1) := by
  intro s
  induction s with
  | nil => intro d e h; simp [braceScanR] at h
  | cons c rest ih =>
    intro d e h
    by_cases h1 : c = '\x7b'
    · subst h1
      rw [braceScanR, if_pos rfl] at h
      cases he' : braceScanR rest (d + 1) with
      | none => rw [he'] at h; simp at h
      | some e' =>
        rw [he'] at h
        simp only [Option.map_some'] at h
        obtain rfl : e' + 1 = e := by injection h
        obtain ⟨hlt, hget, hdel, hmin⟩ := ih (d + 1) e' he'
        refine ⟨by simpa using hlt, by simpa using hget, ?_, ?_⟩
        · rw [List.take_succ_cons, ddelta_cons, if_pos rfl]
          omega
        · intro k hk
          cases k with
          | zero =>
            rintro ⟨hget0, -⟩
            simp at hget0
          | succ k' =>
            rintro ⟨hgetk, hdelk⟩
            refine hmin k' (by omega) ⟨by simpa using hgetk, ?_⟩
            rw [List.take_succ_cons, ddelta_cons, if_pos rfl] at hdelk
            omega
    · by_cases h2 : c = '\x7d'
      · subst h2
        rw [braceScanR, if_neg (by simp), if_pos rfl] at h
        by_cases hd : d = 1
        · subst hd
          rw [if_pos rfl] at h
          obtain rfl : 0 = e := by injection h
          refine ⟨by simp, by simp, by simp [ddelta_nil], by omega⟩
        · rw [if_neg hd] at h
          cases he' : braceScanR rest (d - 1) with
          | none => rw [he'] at h; simp at h
          | some e' =>
            rw [he'] at h
            simp only [Option.map_some'] at h
            obtain rfl : e' + 1 = e := by injection h
            obtain ⟨hlt, hget, hdel, hmin⟩ := ih (d - 1) e' he'
            refine ⟨by simpa using hlt, by simpa using hget, ?_, ?_⟩
            · rw [List.take_succ_cons, ddelta_cons, if_neg (by simp), if_pos rfl]
              omega
            · intro k hk
              cases k with
              | zero =>
                rintro ⟨-, hdel0⟩
                simp [ddelta_nil] at hdel0
                exact hd hdel0
              | succ k' =>
                rintro ⟨hgetk, hdelk⟩
                refine hmin k' (by omega) ⟨by simpa using hgetk, ?_⟩
                rw [List.take_succ_cons, ddelta_cons, if_neg (by simp), if_pos rfl] at hdelk
                omega
      · rw [braceScanR, if_neg h1, if_neg h2] at h
        cases he' : braceScanR rest d with
        | none => rw [he'] at h; simp at h
        | some e' =>
          rw [he'] at h
          simp only [Option.map_some'] at h
          obtain rfl : e' + 1 = e := by injection h
          obtain ⟨hlt, hget, hdel, hmin⟩ := ih d e' he'
          refine ⟨by simpa using hlt, by simpa using hget, ?_, ?_⟩
          · rw [List.take_succ_cons, ddelta_cons, if_neg h1, if_neg h2]
            omega
          · intro k hk
            cases k with
            | zero =>
              rintro ⟨hget0, -⟩
              have : c = '\x7d' := by simpa using hget0
              exact h2 this
            | succ k' =>
              rintro ⟨hgetk, hdelk⟩
              refine hmin k' (by omega) ⟨by simpa using hgetk, ?_⟩
              rw [List.take_succ_cons, ddelta_cons, if_neg h1, if_neg h2] at hdelk
              omega

theorem braceScanR_append (x u : List Char) :
    ∀ d : Int,
      (∀ k, k < x.length → ¬ (x[k]? = some '\x7d' ∧ d + ddelta (x.take k) = 1)) →
      braceScanR (x ++ u) d = (braceScanR u (d + ddelta x)).map (· + x.length) := by
  induction x with
  | nil =>
    intro d _
    simp [ddelta_nil]
  | cons c rest ih =>
    intro d hno
    by_cases h1 : c = '\x7b'
    · subst h1
      rw [List.cons_append, braceScanR, if_pos rfl]
      rw [ih (d + 1) ?_]
      · rw [ddelta_cons, if_pos rfl]
        have harg : d + 1 + ddelta rest = d + (1 + ddelta rest) := by ring
        rw [harg]
        cases braceScanR u (d + (1 + ddelta rest)) <;> simp <;> omega
      · intro k hk
        rintro ⟨hget, hdel⟩
        refine hno (k + 1) (by simpa using Nat.succ_lt_succ hk) ⟨by simpa using hget, ?_⟩
        rw [List.take_succ_cons, ddelta_cons, if_pos rfl]
        omega
    · by_cases h2 : c = '\x7d'
      · subst h2
        have hd : ¬ d = 1 := by
          intro hd
          exact hno 0 (by simp) ⟨by simp, by simp [ddelta_nil, hd]⟩
        rw [List.cons_append, braceScanR, if_neg (by simp), if_pos rfl, if_neg hd]
        rw [ih (d - 1) ?_]
        · rw [ddelta_cons, if_neg (by simp), if_pos rfl]
          have harg : d - 1 + ddelta rest = d + (-1 + ddelta rest) := by ring
          rw [harg]
          cases braceScanR u (d + (-1 + ddelta rest)) <;> simp <;> omega
        · intro k hk
          rintro ⟨hget, hdel⟩
          refine hno (k + 1) (by simpa using Nat.succ_lt_succ hk) ⟨by simpa using hget, ?_⟩
          rw [List.take_succ_cons, ddelta_cons, if_neg (by simp), if_pos rfl]
          omega
      · rw [List.cons_append, braceScanR, if_neg h1, if_neg h2]
        rw [ih d ?_]
        · rw [ddelta_cons, if_neg h1, if_neg h2]
          have harg : d + ddelta rest = d + (0 + ddelta rest) := by ring
          rw [← harg]
          cases braceScanR u (d + ddelta rest) <;> simp <;> omega
        · intro k hk
          rintro ⟨hget, hdel⟩
          refine hno (k + 1) (by simpa using Nat.succ_lt_succ hk) ⟨by simpa using hget, ?_⟩
          rw [List.take_succ_cons, ddelta_cons, if_neg h1, if_neg h2]
          omega

theorem loLit_length : loLit.length = 15 := by decide

theorem matchLO_nil : matchLO [] = none := by decide

theorem scanVal_quote (l : List Char) : scanVal ('"' :: l) = some 0 := rfl

theorem scanVal_bs_cons (d : Char) (l : List Char) (h : ¬ d = '\n') :
    scanVal ('\\' :: d :: l) = (scanVal l).map (· + 2) := by
  simp [scanVal, h]

theorem scanVal_other (c : Char) (l : List Char) (h1 : ¬ c = '"') (h2 : ¬ c = '\\') :
    scanVal (c :: l) = (scanVal l).map (· + 1) := by
  conv_lhs => rw [scanVal.eq_def]
  split <;> simp_all

theorem processRepl_cons_ne (c : Char) (l : List Char) (h : ¬ c = '\\') :
    processRepl (c :: l) = c :: processRepl l := by
  cases l with
  | nil => rfl
  | cons d rest => simp [processRepl, h]

theorem processRepl_bs_bs (l : List Char) :
    processRepl ('\\' :: '\\' :: l) = '\\' :: processRepl l := by
  simp [processRepl]

theorem processRepl_bs_other (c : Char) (l : List Char) (h : ¬ c = '\\') :
    processRepl ('\\' :: c :: l) = '\\' :: c :: processRepl l := by
  simp [processRepl, h]

theorem prefixOf_append_self (p t : List Char) : p.isPrefixOf (p ++ t) = true := by
  rw [isPrefixOf_iff_take]
  simpa using List.take_left p t

theorem drop_append_len (a b : List Char) (n : Nat) :
    (a ++ b).drop (a.length + n) = b.drop n := by
  rw [← List.drop_drop, List.drop_left]

theorem matchLO_inv (s : List Char) (len : Nat) (h : matchLO s = some len) :
    loLit.isPrefixOf s = true ∧ 1 ≤ wsLen (s.drop loLit.length) ∧
      ∃ v n, (s.drop loLit.length).drop (wsLen (s.drop loLit.length)) = '"' :: v ∧
        scanVal v = some n ∧
        len = loLit.length + wsLen (s.drop loLit.length) + 1 + n + 1 := by
  rw [matchLO.eq_def] at h
  split at h
  · next hp =>
    dsimp only at h
    split at h
    · next hw => exact absurd h (by simp)
    · next hw =>
      split at h
      · exact absurd h (by simp)
      · next c v heq =>
        split at h
        · next hc =>
          subst hc
          split at h
          · next n hn =>
            refine ⟨hp, by omega, v, n, heq, hn, ?_⟩
            injection h with h'
            omega
          · exact absurd h (by simp)
        · exact absurd h (by simp)
  · exact absurd h (by simp)

theorem scanVal_bs_nil : scanVal ['\\'] = none := by decide

theorem scanVal_le (v : List Char) : ∀ (n : Nat), scanVal v = some n → n < v.length := by
  induction v using scanVal.induct with
  | case1 => intro n h; exact absurd h (by simp [scanVal])
  | case2 tail =>
    intro n h
    rw [scanVal_quote] at h
    injection h with h'
    simp [← h']
  | case3 => intro n h; rw [scanVal_bs_nil] at h; cases h
  | case4 rest => intro n h; exact absurd h (by simp [scanVal])
  | case5 d rest hd ih =>
    intro n h
    rw [scanVal_bs_cons d rest hd] at h
    cases hr : scanVal rest with
    | none => rw [hr] at h; cases h
    | some m =>
      rw [hr] at h
      simp only [Option.map_some'] at h
      injection h with h'
      have := ih m hr
      simp only [List.length_cons]
      omega
  | case6 head rest g1 g2 g3 ih =>
    intro n h
    have hq : ¬ head = '"' := fun hh => g1 hh
    have hb : ¬ head = '\\' := by
      intro hh
      cases rest with
      | nil => exact g2 hh rfl
      | cons d r => exact g3 d r hh rfl
    rw [scanVal_other head rest hq hb] at h
    cases hr : scanVal rest with
    | none => rw [hr] at h; cases h
    | some m =>
      rw [hr] at h
      simp only [Option.map_some'] at h
      injection h with h'
      have := ih m hr
      simp only [List.length_cons]
      omega

theorem matchLO_bounds (s : List Char) (len : Nat) (h : matchLO s = some len) :
    1 ≤ len ∧ len ≤ s.length := by
  obtain ⟨hp, hw, v, n, hv, hn, hlen⟩ := matchLO_inv s len h
  have hnv : n < v.length := scanVal_le v n hn
  have hlv := congrArg List.length hv
  simp only [List.length_drop, List.length_cons] at hlv
  have hps := occ_len_le loLit s 0 (by decide) (by simpa using hp)
  simp only [Nat.zero_add] at hps
  constructor
  · omega
  · omega

theorem wsLen_ttq (x : List Char) : wsLen ('\t' :: '\t' :: '"' :: x) = 2 := by
  have h1 : isPySpace '\t' = true := by decide
  have h2 : isPySpace '"' = false := by decide
  simp [wsLen, h1, h2]

theorem scanVal_esc : ∀ (cmd : List Char), '\\' ∉ cmd →
    ∀ r, scanVal (escape cmd ++ '"' :: r) = some (escape cmd).length := by
  intro cmd
  induction cmd with
  | nil =>
    intro _ r
    have : escape [] = [] := rfl
    rw [this]
    simpa using scanVal_quote r
  | cons c rest ih =>
    intro hbs r
    have hc : ¬ c = '\\' := fun h => hbs (by simp [h])
    have hrest : '\\' ∉ rest := fun h => hbs (List.mem_cons_of_mem c h)
    rw [escape_cons, if_neg hc]
    by_cases hq : c = '"'
    · subst hq
      rw [if_pos rfl]
      have hsh : (['\\', '"'] ++ escape rest) ++ '"' :: r =
          '\\' :: '"' :: (escape rest ++ '"' :: r) := by simp
      rw [hsh, scanVal_bs_cons '"' _ (by decide), ih hrest r]
      simp only [Option.map_some', List.length_append]
      norm_num
      omega
    · rw [if_neg hq]
      have hsh : ([c] ++ escape rest) ++ '"' :: r = c :: (escape rest ++ '"' :: r) := by simp
      rw [hsh, scanVal_other c _ hq hc, ih hrest r]
      simp only [Option.map_some', List.length_append]
      norm_num
      omega

theorem matchLO_canonical (esc r : List Char)
    (h : scanVal (esc ++ '"' :: r) = some esc.length) :
    matchLO (loLit ++ ('\t' :: '\t' :: '"' :: (esc ++ '"' :: r))) =
      some (19 + esc.length) := by
  rw [matchLO.eq_def]
  split
  · dsimp only
    simp only [List.drop_left]
    rw [wsLen_ttq]
    rw [if_neg (by omega : ¬ (2 : Nat) = 0)]
    have hdrop : (('\t' : Char) :: '\t' :: '"' :: (esc ++ '"' :: r)).drop 2 =
        '"' :: (esc ++ '"' :: r) := rfl
    rw [hdrop]
    dsimp only
    rw [if_pos rfl, h]
    dsimp only
    rw [loLit_length]
    congr 1
    omega
  · next hp => exact absurd (prefixOf_append_self _ _) hp

theorem hasLO_false_of_none (s : List Char) (h : ∀ p, matchLO (s.drop p) = none) :
    hasLO s = false := by
  induction s with
  | nil => rfl
  | cons c rest ih =>
    have h0 := h 0
    simp only [List.drop_zero] at h0
    rw [hasLO, h0]
    simpa using ih fun p => by simpa using h (p + 1)

theorem hasLO_of_match (s : List Char) (p len : Nat) (h : matchLO (s.drop p) = some len) :
    hasLO s = true := by
  induction s generalizing p with
  | nil =>
    rw [List.drop_nil, matchLO_nil] at h
    cases h
  | cons c rest ih =>
    cases p with
    | zero =>
      simp only [List.drop_zero] at h
      simp [hasLO, h]
    | succ p' =>
      have := ih p' (by simpa using h)
      simp [hasLO, this]

theorem reSubAux_skip (r : List Char) :
    ∀ (x t : List Char), reSubAux r (x ++ t) x.length = reSubAux r t 0 := by
  intro x
  induction x with
  | nil => intro t; rfl
  | cons c x' ih =>
    intro t
    have : reSubAux r (c :: (x' ++ t)) (x'.length + 1) = reSubAux r (x' ++ t) x'.length := rfl
    simpa [this] using ih t

theorem reSub_cons_none (r : List Char) (c : Char) (rest : List Char)
    (h : matchLO (c :: rest) = none) :
    reSubLO r (c :: rest) = c :: reSubLO r rest := by
  simp [reSubLO, reSubAux, h]

theorem reSub_match (r s : List Char) (len : Nat) (h : matchLO s = some len) :
    reSubLO r s = r ++ reSubLO r (s.drop len) := by
  cases s with
  | nil => rw [matchLO_nil] at h; cases h
  | cons c rest =>
    obtain ⟨h1, h2⟩ := matchLO_bounds _ _ h
    have step : reSubAux r (c :: rest) 0 = r ++ reSubAux r rest (len - 1) := by
      simp [reSubAux, h]
    have hle : len - 1 ≤ rest.length := by
      simp only [List.length_cons] at h2
      omega
    obtain ⟨x, t, hxt, hxlen⟩ : ∃ x t, rest = x ++ t ∧ x.length = len - 1 :=
      ⟨rest.take (len - 1), rest.drop (len - 1), (List.take_append_drop _ _).symm,
        by simp only [List.length_take]; omega⟩
    subst hxt
    rw [reSubLO, step, ← hxlen, reSubAux_skip]
    have hd : (c :: (x ++ t)).drop len = t := by
      cases len with
      | zero => omega
      | succ l =>
        rw [List.drop_succ_cons]
        have : l = x.length := by omega
        subst this
        exact List.drop_left x t
    rw [hd]
    rfl

theorem reSub_prefix_none (r : List Char) :
    ∀ (p t : List Char), (∀ i, i < p.length → matchLO ((p ++ t).drop i) = none) →
      reSubLO r (p ++ t) = p ++ reSubLO r t := by
  intro p
  induction p with
  | nil => intro t _; rfl
  | cons c p' ih =>
    intro t h
    have h0 := h 0 (by simp)
    simp only [List.drop_zero, List.cons_append] at h0
    rw [List.cons_append, reSub_cons_none r _ _ h0]
    rw [ih t fun i hi => by simpa using h (i + 1) (by simpa using Nat.succ_lt_succ hi)]
    rfl

theorem reSub_id_of_none (r : List Char) :
    ∀ s : List Char, (∀ p, matchLO (s.drop p) = none) → reSubLO r s = s := by
  intro s
  induction s with
  | nil => intro _; rfl
  | cons c rest ih =>
    intro h
    have h0 := h 0
    simp only [List.drop_zero] at h0
    rw [reSub_cons_none r _ _ h0, ih fun p => by simpa using h (p + 1)]

theorem locateApp_inv (doc appId : List Char) (b e : Nat)
    (h : locateApp doc appId = some (b, e)) :
    ∃ a s, pyFind doc appsLit 0 = some a ∧ pyFind doc (appPat appId) a = some s ∧
      pyFind doc ['\x7b'] s = some b ∧ braceScan doc b = some e := by
  unfold locateApp at h
  simp only [Option.bind_eq_bind, Option.bind_eq_some] at h
  obtain ⟨a, ha, s, hs, b', hb, e', he, hpe⟩ := h
  have hpe' : (b', e') = (b, e) := by
    have : some (b', e') = some (b, e) := hpe
    injection this
  obtain ⟨rfl, rfl⟩ : b' = b ∧ e' = e :=
    ⟨congrArg Prod.fst hpe', congrArg Prod.snd hpe'⟩
  exact ⟨a, s, ha, hs, hb, he⟩

theorem locateApp_eq (doc appId : List Char) (a s b e : Nat)
    (ha : pyFind doc appsLit 0 = some a) (hs : pyFind doc (appPat appId) a = some s)
    (hb : pyFind doc ['\x7b'] s = some b) (he : braceScan doc b = some e) :
    locateApp doc appId = some (b, e) := by
  unfold locateApp
  rw [ha]
  simp only [Option.bind_eq_bind, Option.some_bind]
  rw [hs]
  simp only [Option.bind_eq_bind, Option.some_bind]
  rw [hb]
  simp only [Option.bind_eq_bind, Option.some_bind]
  rw [he]
  rfl

theorem braceScanR_prefix_ge (t : List Char) (rel : Nat)
    (hscan : braceScanR t 0 = some rel) (hhead : t[0]? = some '\x7b') :
    ∀ j, 1 ≤ j → j ≤ rel → 1 ≤ ddelta (t.take j) := by
  obtain ⟨hlt, hget, hdel, hmin⟩ := braceScanR_sound t 0 rel hscan
  intro j
  induction j with
  | zero => omega
  | succ j ih =>
    intro _ hle
    have hjlt : j < t.length := by omega
    cases j with
    | zero =>
      obtain ⟨hl, hv⟩ := List.getElem?_eq_some_iff.mp hhead
      rw [List.take_succ, List.take_zero, List.nil_append]
      rw [List.getElem?_eq_getElem hl, hv]
      simp [ddelta_cons, ddelta_nil]
    | succ i =>
      have hprev : 1 ≤ ddelta (t.take (i + 1)) := ih (by omega) (by omega)
      rw [List.take_succ]
      have hsome : ∃ c, t[i + 1]? = some c :=
        ⟨_, List.getElem?_eq_getElem (by omega)⟩
      obtain ⟨c, hc⟩ := hsome
      rw [hc]
      by_cases hcl : c = '\x7d'
      · subst hcl
        have hne := hmin (i + 1) (by omega)
        have hne1 : ¬ (0 : Int) + ddelta (t.take (i + 1)) = 1 := fun hh => hne ⟨hc, hh⟩
        simp only [Option.toList_some]
        rw [ddelta_append]
        have hdm : ddelta ['\x7d'] = -1 := by simp [ddelta_cons, ddelta_nil]
        omega
      · by_cases hcb : c = '\x7b'
        · subst hcb
          simp only [Option.toList_some]
          rw [ddelta_append]
          have : ddelta ['\x7b'] = 1 := by simp [ddelta_cons, ddelta_nil]
          omega
        · simp only [Option.toList_some]
          rw [ddelta_append]
          have : ddelta [c] = 0 := by simp [ddelta_cons, ddelta_nil, hcb, hcl]
          omega

theorem braceScan_inv (doc : List Char) (b e : Nat) (h : braceScan doc b = some e) :
    ∃ rel, braceScanR (doc.drop b) 0 = some rel ∧ e = b + rel := by
  unfold braceScan at h
  cases hr : braceScanR (doc.drop b) 0 with
  | none => rw [hr] at h; cases h
  | some rel =>
    rw [hr] at h
    simp only [Option.map_some'] at h
    injection h with h'
    exact ⟨rel, rfl, h'.symm⟩

theorem locateApp_facts (doc appId : List Char) (b e : Nat)
    (h : locateApp doc appId = some (b, e)) :
    doc[b]? = some '\x7b' ∧ doc[e]? = some '\x7d' ∧ b + 1 ≤ e ∧ e < doc.length ∧
      ((doc.take e).drop (b + 1)).length = e - (b + 1) ∧
      ddelta ((doc.take e).drop (b + 1)) = 0 ∧
      (∀ j, 0 ≤ ddelta (((doc.take e).drop (b + 1)).take j)) := by
  obtain ⟨a, s, ha, hs, hb, he⟩ := locateApp_inv doc appId b e h
  have hbget : doc[b]? = some '\x7b' := pyFind_char_get doc '\x7b' s b hb
  obtain ⟨rel, hscan, hrel⟩ := braceScan_inv doc b e he
  obtain ⟨hlt, hget, hdel, hmin⟩ := braceScanR_sound (doc.drop b) 0 rel hscan
  have hblen : b < doc.length := by
    obtain ⟨hl, -⟩ := List.getElem?_eq_some_iff.mp hbget
    exact hl
  have hdl : (doc.drop b).length = doc.length - b := List.length_drop b doc
  have helt : e < doc.length := by omega
  have hhead : (doc.drop b)[0]? = some '\x7b' := by
    rw [List.getElem?_drop]
    simpa using hbget
  have hrel1 : 1 ≤ rel := by
    rcases Nat.eq_zero_or_pos rel with h0 | h1
    · subst h0
      rw [hhead] at hget
      injection hget with hc
      exact absurd hc (by decide)
    · exact h1
  have heget : doc[e]? = some '\x7d' := by
    rw [hrel, ← List.getElem?_drop]
    exact hget
  have hT : doc.drop b = '\x7b' :: doc.drop (b + 1) := by
    obtain ⟨hl, hv⟩ := List.getElem?_eq_some_iff.mp hbget
    rw [List.drop_eq_getElem_cons hl, hv]
  -- the interior text
  have hII : (doc.take e).drop (b + 1) = (doc.drop (b + 1)).take (e - (b + 1)) := by
    rw [List.drop_take]
  have hIlen : ((doc.take e).drop (b + 1)).length = e - (b + 1) := by
    rw [hII, List.length_take, List.length_drop]
    omega
  have hTtake : ∀ j, j ≤ rel - 1 →
      (doc.drop b).take (j + 1) = '\x7b' :: (doc.drop (b + 1)).take j := by
    intro j _
    rw [hT, List.take_succ_cons]
  have hIdel : ddelta ((doc.take e).drop (b + 1)) = 0 := by
    have h1 : (doc.drop b).take rel = '\x7b' :: (doc.drop (b + 1)).take (rel - 1) := by
      have := hTtake (rel - 1) (by omega)
      have hre : rel - 1 + 1 = rel := by omega
      rwa [hre] at this
    rw [h1, ddelta_cons] at hdel
    rw [if_pos rfl] at hdel
    rw [hII]
    have hre : e - (b + 1) = rel - 1 := by omega
    rw [hre]
    omega
  refine ⟨hbget, heget, by omega, helt, hIlen, hIdel, ?_⟩
  intro j
  by_cases hj : j ≤ e - (b + 1)
  · cases Nat.eq_zero_or_pos j with
    | inl h0 => subst h0; simp [ddelta_nil]
    | inr hpos =>
      have hpre := braceScanR_prefix_ge (doc.drop b) rel hscan hhead (j + 1)
        (by omega) (by omega)
      rw [hTtake j (by omega), ddelta_cons, if_pos rfl] at hpre
      rw [hII, List.take_take, Nat.min_def, if_pos (by omega)]
      omega
  · push_neg at hj
    rw [List.take_of_length_le (by omega)]
    omega

theorem doc_decomp (doc : List Char) (b e : Nat) (h1 : b + 1 ≤ e) (h2 : e ≤ doc.length) :
    doc = doc.take (b + 1) ++ ((doc.take e).drop (b + 1) ++ doc.drop e) := by
  conv_lhs => rw [← List.take_append_drop (b + 1) doc]
  congr 1
  rw [List.drop_take]
  conv_lhs => rw [← List.take_append_drop (e - (b + 1)) (doc.drop (b + 1))]
  congr 1
  rw [List.drop_drop]
  congr 1
  omega

theorem modifyVdfCore_insert (doc appId cmd : List Char) (b e : Nat)
    (hloc : locateApp doc appId = some (b, e))
    (hno : hasLO ((doc.take e).drop (b + 1)) = false) :
    modifyVdfCore doc appId cmd =
      some (doc.take (b + 1) ++
        (((doc.take e).drop (b + 1)).take (insertionPos ((doc.take e).drop (b + 1))) ++
          insLine (escape cmd) ++
          ((doc.take e).drop (b + 1)).drop (insertionPos ((doc.take e).drop (b + 1)))) ++
        doc.drop e, true) := by
  unfold modifyVdfCore
  rw [hloc]
  simp only [Option.bind_eq_bind, Option.some_bind]
  rw [if_neg (by simp [hno])]
  rfl

theorem modifyVdfCore_replace (doc appId cmd : List Char) (b e : Nat)
    (hloc : locateApp doc appId = some (b, e))
    (hyes : hasLO ((doc.take e).drop (b + 1)) = true) :
    modifyVdfCore doc appId cmd =
      some (doc.take (b + 1) ++
        reSubLO (processRepl (launchLine (escape cmd))) ((doc.take e).drop (b + 1)) ++
        doc.drop e, false) := by
  unfold modifyVdfCore
  rw [hloc]
  simp only [Option.bind_eq_bind, Option.some_bind]
  rw [if_pos (by simp [hyes])]
  rfl

theorem anchorStep_le (content : List Char) (pos : Nat) (key : List Char)
    (h : pos ≤ content.length) : anchorStep content pos key ≤ content.length := by
  unfold anchorStep
  split
  · exact h
  · next kp h1 =>
    split
    · exact h
    · next le h2 =>
      obtain ⟨-, hpre, -⟩ := pyFind_spec content ['\n'] kp le h2
      have := occ_lt_length ['\n'] content le (by simp) hpre
      omega

theorem insertionPos_le (content : List Char) : insertionPos content ≤ content.length := by
  unfold insertionPos anchorKeys
  simp only [List.foldl_cons, List.foldl_nil]
  exact anchorStep_le _ _ _ (anchorStep_le _ _ _ (anchorStep_le _ _ _ (anchorStep_le _ _ _
    (by omega))))

/-- C5: on the insert path (record located, no existing LaunchOptions
match in its interior), the patch inserts exactly one new launch-line
block at one offset inside the record's interior, and every byte
outside the interior — the prefix through the opening brace and the
suffix from the closing brace on — is exactly the input document's. -/
theorem c5_insert_frame_effect (doc appId cmd : List Char) (b e : Nat)
    (hloc : locateApp doc appId = some (b, e))
    (hno : hasLO ((doc.take e).drop (b + 1)) = false) :
    ∃ k, k ≤ ((doc.take e).drop (b + 1)).length ∧
      modifyVdfCore doc appId cmd =
        some (doc.take (b + 1) ++
          (((doc.take e).drop (b + 1)).take k ++ insLine (escape cmd) ++
            ((doc.take e).drop (b + 1)).drop k) ++ doc.drop e, true) ∧
      doc = doc.take (b + 1) ++ ((doc.take e).drop (b + 1) ++ doc.drop e) := by
  obtain ⟨-, -, hbe, helt, -, -, -⟩ := locateApp_facts doc appId b e hloc
  exact ⟨insertionPos ((doc.take e).drop (b + 1)), insertionPos_le _,
    modifyVdfCore_insert doc appId cmd b e hloc hno,
    doc_decomp doc b e hbe (by omega)⟩

/-- Closed instance of `c5_insert_frame_effect` on a concrete document
with a located record and no existing field. -/
theorem c5_insert_frame_effect_witness :
    (modifyVdfCore "\"apps\"\x7b\"1\"\x7b\n\"name\" \"G\"\n\x7d\x7d".toList
      "1".toList "h".toList).isSome = true := by
  obtain ⟨k, -, heq, -⟩ := c5_insert_frame_effect
    "\"apps\"\x7b\"1\"\x7b\n\"name\" \"G\"\n\x7d\x7d".toList "1".toList "h".toList
    10 23 (by decide) (by decide)
  rw [heq]
  rfl

theorem matchLO_none_ext (q : List Char) (hq : ∀ i, i < q.length → matchLO (q.drop i) = none) :
    ∀ i, matchLO (q.drop i) = none := by
  intro i
  by_cases hi : i < q.length
  · exact hq i hi
  · push_neg at hi
    rw [List.drop_eq_nil_of_le hi, matchLO_nil]

/-- C2 (amended): when the located record's interior decomposes as
`p ++ m ++ q` with `m` the first regex match and no further match, the
patch rewrites exactly the matched field `m` to the canonical
`"LaunchOptions"<TAB><TAB>"<escaped>"` text (the replacement processed
by `re.sub`'s escape rules) — the key token is rewritten identically,
but the original separating whitespace inside `m` is replaced by two
tabs, not preserved — and every byte of `p`, `q`, and the document
outside the record interior is unchanged. -/
theorem c2_replace_surgical (doc appId cmd p m q : List Char) (b e : Nat)
    (hloc : locateApp doc appId = some (b, e))
    (hI : (doc.take e).drop (b + 1) = p ++ (m ++ q))
    (hm : matchLO (m ++ q) = some m.length)
    (hp : ∀ i, i < p.length → matchLO ((p ++ (m ++ q)).drop i) = none)
    (hq : ∀ i, i < q.length → matchLO (q.drop i) = none) :
    modifyVdfCore doc appId cmd =
      some (doc.take (b + 1) ++
        (p ++ (processRepl (launchLine (escape cmd)) ++ q)) ++ doc.drop e, false) := by
  have hmatchI : matchLO (((doc.take e).drop (b + 1)).drop p.length) = some m.length := by
    rw [hI, List.drop_left]
    exact hm
  have hyes : hasLO ((doc.take e).drop (b + 1)) = true :=
    hasLO_of_match _ _ _ hmatchI
  rw [modifyVdfCore_replace doc appId cmd b e hloc hyes]
  congr 2
  rw [hI]
  rw [reSub_prefix_none _ p (m ++ q) hp]
  rw [reSub_match _ (m ++ q) m.length hm]
  rw [List.drop_left]
  rw [reSub_id_of_none _ q (matchLO_none_ext q hq)]

/-- Closed instance of `c2_replace_surgical`: a record whose field is
separated by a single space is rewritten to the two-tab canonical
form, all other bytes unchanged. -/
theorem c2_replace_surgical_witness :
    modifyVdfCore "\"apps\"\x7b\"1\"\x7b\"LaunchOptions\" \"old\"\x7d\x7d".toList
        "1".toList "hi".toList =
      some ("\"apps\"\x7b\"1\"\x7b\"LaunchOptions\" \"old\"\x7d\x7d".toList.take (10 + 1) ++
        ([] ++ (processRepl (launchLine (escape "hi".toList)) ++ [])) ++
        "\"apps\"\x7b\"1\"\x7b\"LaunchOptions\" \"old\"\x7d\x7d".toList.drop 32, false) :=
  c2_replace_surgical "\"apps\"\x7b\"1\"\x7b\"LaunchOptions\" \"old\"\x7d\x7d".toList
    "1".toList "hi".toList [] "\"LaunchOptions\" \"old\"".toList [] 10 32
    (by decide) (by decide) (by decide) (by decide) (by decide)

/-- C8 (amended): `re.sub` replaces every non-overlapping match, not
only the first — when the interior decomposes as
`p ++ m1 ++ q ++ m2 ++ t` with `m1` and `m2` both matches of the field
regex and no other match, both are rewritten to the same canonical
replacement text, and the later occurrence is not left unchanged. -/
theorem c8_all_matches_replaced (doc appId cmd p m1 q m2 t : List Char) (b e : Nat)
    (hloc : locateApp doc appId = some (b, e))
    (hI : (doc.take e).drop (b + 1) = p ++ (m1 ++ (q ++ (m2 ++ t))))
    (hm1 : matchLO (m1 ++ (q ++ (m2 ++ t))) = some m1.length)
    (hm2 : matchLO (m2 ++ t) = some m2.length)
    (hp : ∀ i, i < p.length → matchLO ((p ++ (m1 ++ (q ++ (m2 ++ t)))).drop i) = none)
    (hq : ∀ i, i < q.length → matchLO ((q ++ (m2 ++ t)).drop i) = none)
    (ht : ∀ i, i < t.length → matchLO (t.drop i) = none) :
    modifyVdfCore doc appId cmd =
      some (doc.take (b + 1) ++
        (p ++ (processRepl (launchLine (escape cmd)) ++
          (q ++ (processRepl (launchLine (escape cmd)) ++ t)))) ++ doc.drop e, false) := by
  have hmatchI : matchLO (((doc.take e).drop (b + 1)).drop p.length) = some m1.length := by
    rw [hI, List.drop_left]
    exact hm1
  have hyes : hasLO ((doc.take e).drop (b + 1)) = true :=
    hasLO_of_match _ _ _ hmatchI
  rw [modifyVdfCore_replace doc appId cmd b e hloc hyes]
  congr 2
  rw [hI]
  rw [reSub_prefix_none _ p _ hp]
  rw [reSub_match _ _ m1.length hm1, List.drop_left]
  rw [reSub_prefix_none _ q _ hq]
  rw [reSub_match _ _ m2.length hm2, List.drop_left]
  rw [reSub_id_of_none _ t (matchLO_none_ext t ht)]

/-- Closed instance of `c8_all_matches_replaced` on a record holding
the field twice. -/
theorem c8_all_matches_replaced_witness :
    modifyVdfCore
        "\"apps\"\x7b\"1\"\x7b\"LaunchOptions\" \"a\" \"LaunchOptions\" \"b\"\x7d\x7d".toList
        "1".toList "h".toList =
      some
        ("\"apps\"\x7b\"1\"\x7b\"LaunchOptions\" \"a\" \"LaunchOptions\" \"b\"\x7d\x7d".toList.take
            (10 + 1) ++
          ([] ++ (processRepl (launchLine (escape "h".toList)) ++
            ([' '] ++ (processRepl (launchLine (escape "h".toList)) ++ [])))) ++
          "\"apps\"\x7b\"1\"\x7b\"LaunchOptions\" \"a\" \"LaunchOptions\" \"b\"\x7d\x7d".toList.drop
            50, false) :=
  c8_all_matches_replaced
    "\"apps\"\x7b\"1\"\x7b\"LaunchOptions\" \"a\" \"LaunchOptions\" \"b\"\x7d\x7d".toList
    "1".toList "h".toList [] "\"LaunchOptions\" \"a\"".toList [' ']
    "\"LaunchOptions\" \"b\"".toList [] 10 50
    (by decide) (by decide) (by decide) (by decide) (by decide) (by decide) (by decide)

theorem anchorStep_none (content : List Char) (pos : Nat) (key : List Char)
    (h : pyFind content key 0 = none) : anchorStep content pos key = pos := by
  unfold anchorStep
  rw [h]

theorem anchorStep_found (content : List Char) (pos : Nat) (key : List Char) (kp nl : Nat)
    (h1 : pyFind content key 0 = some kp) (h2 : pyFind content ['\n'] kp = some nl) :
    anchorStep content pos key = nl + 1 := by
  unfold anchorStep
  rw [h1]
  dsimp only
  rw [h2]

theorem insertionPos_no_anchor (content : List Char)
    (h : ∀ key, key ∈ anchorKeys → pyFind content key 0 = none) :
    insertionPos content = 0 := by
  unfold insertionPos anchorKeys
  simp only [List.foldl_cons, List.foldl_nil]
  rw [anchorStep_none _ _ _ (h _ (by simp [anchorKeys])),
    anchorStep_none _ _ _ (h _ (by simp [anchorKeys])),
    anchorStep_none _ _ _ (h _ (by simp [anchorKeys])),
    anchorStep_none _ _ _ (h _ (by simp [anchorKeys]))]

theorem insertionPos_tool (content : List Char) (tp nl : Nat)
    (h1 : pyFind content "\"tool\"".toList 0 = some tp)
    (h2 : pyFind content ['\n'] tp = some nl) :
    insertionPos content = nl + 1 := by
  unfold insertionPos anchorKeys
  simp only [List.foldl_cons, List.foldl_nil]
  rw [anchorStep_found _ _ _ tp nl h1 h2]

theorem anchorStep_eq_point (content : List Char) (pos : Nat) (key : List Char) :
    anchorStep content pos key = (anchorPoint content key).getD pos := by
  unfold anchorStep anchorPoint
  cases h1 : pyFind content key 0 with
  | none => rfl
  | some kp =>
    simp only [Option.some_bind]
    cases h2 : pyFind content ['\n'] kp with
    | none => rfl
    | some nl => rfl

theorem getLast?_getD_cons (a p : Nat) (l : List Nat) :
    ((a :: l).getLast?).getD p = (l.getLast?).getD a := by
  cases l with
  | nil => simp [List.getLast?_singleton]
  | cons b l' =>
    rw [List.getLast?_cons_cons]
    cases h : (b :: l').getLast? with
    | none => exact absurd (List.getLast?_eq_none_iff.mp h) (by simp)
    | some x => rfl

theorem foldl_anchor_eq (content : List Char) :
    ∀ (keys : List (List Char)) (pos : Nat),
      List.foldl (anchorStep content) pos keys =
        ((keys.filterMap (anchorPoint content)).getLast?).getD pos := by
  intro keys
  induction keys with
  | nil => intro pos; rfl
  | cons key rest ih =>
    intro pos
    rw [List.foldl_cons, anchorStep_eq_point, List.filterMap_cons]
    cases hq : anchorPoint content key with
    | none =>
      simp only [Option.getD_none]
      exact ih pos
    | some ip =>
      simp only [Option.getD_some]
      rw [ih ip, getLast?_getD_cons]

theorem insertionPos_eq_lastAnchor (content : List Char) :
    insertionPos content =
      ((anchorKeys.filterMap (anchorPoint content)).getLast?).getD 0 :=
  foldl_anchor_eq content anchorKeys 0

/-- C3 (amended): on the insert path the new field is spliced in at
the offset contributed by the last anchor, in the fixed order name,
LastUpdated, SizeOnDisk, tool, that occurs in the record's interior
with a newline after its first occurrence — the offset is the position
just past that newline (`anchorPoint`), anchors without a following
newline contribute nothing, and the last qualifying anchor in the
order wins.  With no qualifying anchor the offset is `0`: the field is
inserted at the very beginning of the interior, immediately after the
opening brace, not appended before the record's closing boundary.  A
qualifying `"tool"` anchor, being last in the order, always wins. -/
theorem c3_insert_position (doc appId cmd : List Char) (b e : Nat)
    (hloc : locateApp doc appId = some (b, e))
    (hno : hasLO ((doc.take e).drop (b + 1)) = false) :
    (modifyVdfCore doc appId cmd =
      some (doc.take (b + 1) ++
        (((doc.take e).drop (b + 1)).take
            (((anchorKeys.filterMap
              (anchorPoint ((doc.take e).drop (b + 1)))).getLast?).getD 0) ++
          insLine (escape cmd) ++
          ((doc.take e).drop (b + 1)).drop
            (((anchorKeys.filterMap
              (anchorPoint ((doc.take e).drop (b + 1)))).getLast?).getD 0)) ++
        doc.drop e, true)) ∧
    ((∀ key, key ∈ anchorKeys → pyFind ((doc.take e).drop (b + 1)) key 0 = none) →
      modifyVdfCore doc appId cmd =
        some (doc.take (b + 1) ++
          (insLine (escape cmd) ++ (doc.take e).drop (b + 1)) ++ doc.drop e, true)) ∧
    (∀ tp nl, pyFind ((doc.take e).drop (b + 1)) "\"tool\"".toList 0 = some tp →
      pyFind ((doc.take e).drop (b + 1)) ['\n'] tp = some nl →
      modifyVdfCore doc appId cmd =
        some (doc.take (b + 1) ++
          (((doc.take e).drop (b + 1)).take (nl + 1) ++ insLine (escape cmd) ++
            ((doc.take e).drop (b + 1)).drop (nl + 1)) ++ doc.drop e, true)) := by
  refine ⟨?_, ?_, ?_⟩
  · rw [modifyVdfCore_insert doc appId cmd b e hloc hno, insertionPos_eq_lastAnchor]
  · intro h
    rw [modifyVdfCore_insert doc appId cmd b e hloc hno, insertionPos_no_anchor _ h]
    simp
  · intro tp nl h1 h2
    rw [modifyVdfCore_insert doc appId cmd b e hloc hno, insertionPos_tool _ tp nl h1 h2]

/-- Closed instances of all three parts of `c3_insert_position`: a
record whose only qualifying anchor is `"name"` receives the field
right after the name line, an anchor-free record receives it right
after its opening brace, and a record with a `"tool"` line receives it
right after that line. -/
theorem c3_insert_position_witness :
    (modifyVdfCore "\"apps\"\x7b\"1\"\x7b\n\"name\" \"G\"\n\"x\" \"y\"\n\x7d\x7d".toList
      "1".toList "h".toList).isSome = true ∧
    (modifyVdfCore "\"apps\"\x7b\"1\"\x7b\n\t\"x\" \"y\"\n\x7d\x7d".toList
      "1".toList "h".toList).isSome = true ∧
    (modifyVdfCore "\"apps\"\x7b\"1\"\x7b\n\"tool\" \"1\"\n\x7d\x7d".toList
      "1".toList "h".toList).isSome = true := by
  refine ⟨?_, ?_, ?_⟩
  · have h := (c3_insert_position
      "\"apps\"\x7b\"1\"\x7b\n\"name\" \"G\"\n\"x\" \"y\"\n\x7d\x7d".toList
      "1".toList "h".toList 10 31 (by decide) (by decide)).1
    rw [h]
    rfl
  · have h := (c3_insert_position "\"apps\"\x7b\"1\"\x7b\n\t\"x\" \"y\"\n\x7d\x7d".toList
      "1".toList "h".toList 10 21 (by decide) (by decide)).2.1 (by decide)
    rw [h]
    rfl
  · have h := (c3_insert_position "\"apps\"\x7b\"1\"\x7b\n\"tool\" \"1\"\n\x7d\x7d".toList
      "1".toList "h".toList 10 23 (by decide) (by decide)).2.2 1 11 (by decide) (by decide)
    rw [h]
    rfl

/-- C7 (amended): locating the record fails exactly when the document
has no `"apps"` literal, or the quoted app id does not occur at or
after it, or no opening brace occurs anywhere after the id's first
occurrence, or the brace scan finds no matching closing brace.  The
brace need not follow the id immediately modulo whitespace: arbitrary
intervening text is skipped, and the first brace block after the first
occurrence of the id is the one patched. -/
theorem c7_locator_condition (doc appId : List Char) :
    locateApp doc appId = none ↔
      pyFind doc appsLit 0 = none ∨
      (∃ a, pyFind doc appsLit 0 = some a ∧ pyFind doc (appPat appId) a = none) ∨
      (∃ a s, pyFind doc appsLit 0 = some a ∧ pyFind doc (appPat appId) a = some s ∧
        pyFind doc ['\x7b'] s = none) ∨
      (∃ a s b, pyFind doc appsLit 0 = some a ∧ pyFind doc (appPat appId) a = some s ∧
        pyFind doc ['\x7b'] s = some b ∧ braceScan doc b = none) := by
  unfold locateApp
  simp only [Option.bind_eq_bind]
  cases h1 : pyFind doc appsLit 0 with
  | none => simp [h1]
  | some a =>
    simp only [Option.some_bind]
    cases h2 : pyFind doc (appPat appId) a with
    | none => simp [h1, h2]
    | some s =>
      simp only [Option.some_bind]
      cases h3 : pyFind doc ['\x7b'] s with
      | none => simp [h1, h2, h3]
      | some b =>
        simp only [Option.some_bind]
        cases h4 : braceScan doc b with
        | none => simp [h1, h2, h3, h4]
        | some e => simp [h1, h2, h3, h4, Option.pure_def]

theorem count_replaceChar (old : Char) (new : List Char) (s : List Char) (c : Char)
    (hco : ¬ c = old) (hn : new.count c = 0) :
    (replaceChar old new s).count c = s.count c := by
  induction s with
  | nil => rfl
  | cons x rest ih =>
    rw [replaceChar, List.count_append, ih]
    by_cases hx : x = old
    · rw [if_pos hx, hn, List.count_cons]
      have hxc : (x == c) = false := by
        simp only [beq_eq_false_iff_ne, ne_eq]
        intro hcx
        exact hco (by rw [← hcx, hx])
      rw [hxc]
      simp
    · rw [if_neg hx, List.count_cons, List.count_cons, List.count_nil]
      omega

theorem count_escape (cmd : List Char) (c : Char) (h1 : ¬ c = '\\') (h2 : ¬ c = '"') :
    (escape cmd).count c = cmd.count c := by
  unfold escape
  rw [count_replaceChar _ _ _ _ h2 (by simp [List.count_cons, h1, h2]),
    count_replaceChar _ _ _ _ h1 (by simp [List.count_cons, h1])]

theorem count_processRepl (c : Char) (hc : ¬ c = '\\') :
    ∀ l : List Char, (processRepl l).count c = l.count c := by
  have hc' : ¬ ('\\' == c) = true := by
    simp only [beq_iff_eq]
    intro h
    exact hc h.symm
  intro l
  induction l using processRepl.induct with
  | case1 => rfl
  | case2 d => rfl
  | case3 rest ih =>
    rw [processRepl_bs_bs]
    simp only [List.count_cons, ih]
    simp [hc']
  | case4 d rest hd ih =>
    rw [processRepl_bs_other d rest hd]
    simp only [List.count_cons, ih]
  | case5 x d rest hx ih =>
    rw [processRepl_cons_ne x (d :: rest) hx]
    simp only [List.count_cons, ih]

theorem modifyVdfCore_inv (doc appId cmd d : List Char) (w : Bool)
    (h : modifyVdfCore doc appId cmd = some (d, w)) :
    ∃ b e, locateApp doc appId = some (b, e) ∧
      ((hasLO ((doc.take e).drop (b + 1)) = false ∧ w = true ∧
        d = doc.take (b + 1) ++
          (((doc.take e).drop (b + 1)).take (insertionPos ((doc.take e).drop (b + 1))) ++
            insLine (escape cmd) ++
            ((doc.take e).drop (b + 1)).drop (insertionPos ((doc.take e).drop (b + 1)))) ++
          doc.drop e) ∨
       (hasLO ((doc.take e).drop (b + 1)) = true ∧ w = false ∧
        d = doc.take (b + 1) ++
          reSubLO (processRepl (launchLine (escape cmd))) ((doc.take e).drop (b + 1)) ++
          doc.drop e)) := by
  cases hloc : locateApp doc appId with
  | none =>
    unfold modifyVdfCore at h
    rw [hloc] at h
    exact absurd h (by simp [Option.bind_eq_bind])
  | some be =>
    obtain ⟨b, e⟩ := be
    refine ⟨b, e, rfl, ?_⟩
    cases hlo : hasLO ((doc.take e).drop (b + 1)) with
    | false =>
      left
      have heq := modifyVdfCore_insert doc appId cmd b e hloc hlo
      rw [heq] at h
      injection h with h'
      rw [Prod.mk.injEq] at h'
      exact ⟨rfl, h'.2.symm, h'.1.symm⟩
    | true =>
      right
      have heq := modifyVdfCore_replace doc appId cmd b e hloc hlo
      rw [heq] at h
      injection h with h'
      rw [Prod.mk.injEq] at h'
      exact ⟨rfl, h'.2.symm, h'.1.symm⟩

theorem count_insLine_brace (cmd : List Char) (c : Char)
    (hc : c = '\x7b' ∨ c = '\x7d') (hmem : c ∉ cmd) :
    (insLine (escape cmd)).count c = 0 := by
  have h1 : ¬ c = '\\' := by rcases hc with rfl | rfl <;> decide
  have h2 : ¬ c = '"' := by rcases hc with rfl | rfl <;> decide
  have hesc : (escape cmd).count c = 0 := by
    rw [count_escape cmd c h1 h2]
    exact List.count_eq_zero.mpr hmem
  rcases hc with rfl | rfl <;>
    simp [insLine, launchLine, indent6, loLit, List.count_append, List.count_cons, hesc]

theorem count_repl_brace (cmd : List Char) (c : Char)
    (hc : c = '\x7b' ∨ c = '\x7d') (hmem : c ∉ cmd) :
    (processRepl (launchLine (escape cmd))).count c = 0 := by
  have h1 : ¬ c = '\\' := by rcases hc with rfl | rfl <;> decide
  have h2 : ¬ c = '"' := by rcases hc with rfl | rfl <;> decide
  have hesc : (escape cmd).count c = 0 := by
    rw [count_escape cmd c h1 h2]
    exact List.count_eq_zero.mpr hmem
  rw [count_processRepl c h1]
  rcases hc with rfl | rfl <;>
    simp [launchLine, loLit, List.count_append, List.count_cons, hesc]

/-- C10 (amended): a successful patch preserves the equality of the
counts of opening and closing braces provided the launch command is
brace-free and, on the replace path, the matched field text is itself
brace-free; on the insert path no further condition is needed.  (A
matched value containing a brace is deleted by the substitution, which
is the counterexample's failure mode.) -/
theorem c10_brace_balance (doc appId cmd p m q : List Char) (b e : Nat)
    (hcmd1 : '\x7b' ∉ cmd) (hcmd2 : '\x7d' ∉ cmd)
    (hbal : doc.count '\x7b' = doc.count '\x7d') :
    (∀ d, modifyVdfCore doc appId cmd = some (d, true) →
      d.count '\x7b' = d.count '\x7d') ∧
    (locateApp doc appId = some (b, e) →
      (doc.take e).drop (b + 1) = p ++ (m ++ q) →
      matchLO (m ++ q) = some m.length →
      (∀ i, i < p.length → matchLO ((p ++ (m ++ q)).drop i) = none) →
      (∀ i, i < q.length → matchLO (q.drop i) = none) →
      m.count '\x7b' = 0 → m.count '\x7d' = 0 →
      ∀ d, modifyVdfCore doc appId cmd = some (d, false) →
        d.count '\x7b' = d.count '\x7d') := by
  constructor
  · intro d hmod
    obtain ⟨b', e', hloc, hcase⟩ := modifyVdfCore_inv doc appId cmd d true hmod
    rcases hcase with ⟨hno, -, hd⟩ | ⟨-, hw, -⟩
    · obtain ⟨-, -, hbe, helt, -, -, -⟩ := locateApp_facts doc appId b' e' hloc
      have hdec := doc_decomp doc b' e' hbe (by omega)
      have key : ∀ c : Char, c = '\x7b' ∨ c = '\x7d' → c ∉ cmd →
          d.count c = doc.count c := by
        intro c hcb hcm
        rw [hd]
        conv_rhs => rw [hdec]
        simp only [List.count_append]
        have hsplit : (((doc.take e').drop (b' + 1)).take
              (insertionPos ((doc.take e').drop (b' + 1)))).count c +
            (((doc.take e').drop (b' + 1)).drop
              (insertionPos ((doc.take e').drop (b' + 1)))).count c =
            ((doc.take e').drop (b' + 1)).count c := by
          conv_rhs => rw [← List.take_append_drop
            (insertionPos ((doc.take e').drop (b' + 1))) ((doc.take e').drop (b' + 1))]
          rw [List.count_append]
        rw [count_insLine_brace cmd c hcb hcm]
        omega
      rw [key '\x7b' (Or.inl rfl) hcmd1, key '\x7d' (Or.inr rfl) hcmd2]
      exact hbal
    · exact absurd hw (by simp)
  · intro hloc hI hm hp hq hmb1 hmb2 d hmod
    have heq := c2_replace_surgical doc appId cmd p m q b e hloc hI hm hp hq
    rw [heq] at hmod
    injection hmod with h'
    rw [Prod.mk.injEq] at h'
    obtain ⟨hd, -⟩ := h'
    obtain ⟨-, -, hbe, helt, -, -, -⟩ := locateApp_facts doc appId b e hloc
    have hdec := doc_decomp doc b e hbe (by omega)
    have key : ∀ c : Char, c = '\x7b' ∨ c = '\x7d' → c ∉ cmd → m.count c = 0 →
        d.count c = doc.count c := by
      intro c hcb hcm hmc
      rw [← hd]
      conv_rhs => rw [hdec]
      rw [hI]
      simp only [List.count_append]
      rw [count_repl_brace cmd c hcb hcm, hmc]
      omega
    rw [key '\x7b' (Or.inl rfl) hcmd1 hmb1, key '\x7d' (Or.inr rfl) hcmd2 hmb2]
    exact hbal

/-- Closed instances of both parts of `c10_brace_balance`: an insert
into a balanced document stays balanced, and a replace of a brace-free
match in a balanced document stays balanced. -/
theorem c10_brace_balance_witness :
    ("\"apps\"\x7b\"1\"\x7b\n\x7d\x7d".toList.count '\x7b' =
      "\"apps\"\x7b\"1\"\x7b\n\x7d\x7d".toList.count '\x7d') ∧
    (∀ d, modifyVdfCore "\"apps\"\x7b\"1\"\x7b\n\x7d\x7d".toList "1".toList "h".toList =
      some (d, true) → d.count '\x7b' = d.count '\x7d') ∧
    (∀ d, modifyVdfCore "\"apps\"\x7b\"1\"\x7b\"LaunchOptions\" \"old\"\x7d\x7d".toList
      "1".toList "h".toList = some (d, false) → d.count '\x7b' = d.count '\x7d') := by
  refine ⟨by decide, ?_, ?_⟩
  · exact (c10_brace_balance "\"apps\"\x7b\"1\"\x7b\n\x7d\x7d".toList "1".toList "h".toList
      [] [] [] 0 0 (by decide) (by decide) (by decide)).1
  · exact (c10_brace_balance "\"apps\"\x7b\"1\"\x7b\"LaunchOptions\" \"old\"\x7d\x7d".toList
      "1".toList "h".toList [] "\"LaunchOptions\" \"old\"".toList [] 10 32
      (by decide) (by decide) (by decide)).2
      (by decide) (by decide) (by decide) (by decide) (by decide) (by decide) (by decide)

theorem matchLO_none_of_no_lit (s : List Char) (h : ¬ loLit.isPrefixOf s = true) :
    matchLO s = none := by
  rw [matchLO.eq_def, if_neg h]

theorem ddelta_zero_of_counts (l : List Char) (h1 : l.count '\x7b' = 0)
    (h2 : l.count '\x7d' = 0) : ddelta l = 0 := by
  simp [ddelta, h1, h2]

theorem ddelta_take_zero (l : List Char) (h1 : l.count '\x7b' = 0)
    (h2 : l.count '\x7d' = 0) (n : Nat) : ddelta (l.take n) = 0 := by
  refine ddelta_zero_of_counts _ ?_ ?_
  · exact Nat.le_zero.mp (h1 ▸ (List.take_sublist n l).count_le '\x7b')
  · exact Nat.le_zero.mp (h2 ▸ (List.take_sublist n l).count_le '\x7d')

theorem newI_prefix_nonneg (content : List Char) (k : Nat) (ins : List Char)
    (hk : k ≤ content.length)
    (hpre : ∀ j, 0 ≤ ddelta (content.take j))
    (h1 : ins.count '\x7b' = 0) (h2 : ins.count '\x7d' = 0) :
    ∀ j, 0 ≤ ddelta ((content.take k ++ ins ++ content.drop k).take j) := by
  intro j
  have hklen : (content.take k).length = k := by
    simp only [List.length_take]
    omega
  rw [List.take_append_eq_append_take, List.take_append_eq_append_take,
    ddelta_append, ddelta_append]
  try simp only [List.length_append, hklen]
  have hB : ddelta (ins.take (j - k)) = 0 := ddelta_take_zero ins h1 h2 _
  by_cases hj : j ≤ k + ins.length
  · have hC : j - (k + ins.length) = 0 := by omega
    rw [hC, List.take_zero, ddelta_nil, List.take_take]
    have := hpre (min j k)
    omega
  · have hjk : min j k = k := by omega
    rw [List.take_take, hjk]
    have hsum : ddelta (content.take k) +
        ddelta ((content.drop k).take (j - (k + ins.length))) =
        ddelta (content.take (k + (j - (k + ins.length)))) := by
      rw [List.take_add, ddelta_append]
    have := hpre (k + (j - (k + ins.length)))
    omega

theorem newI_ddelta (content : List Char) (k : Nat) (ins : List Char)
    (hd : ddelta content = 0)
    (h1 : ins.count '\x7b' = 0) (h2 : ins.count '\x7d' = 0) :
    ddelta (content.take k ++ ins ++ content.drop k) = 0 := by
  rw [ddelta_append, ddelta_append, ddelta_zero_of_counts ins h1 h2]
  have : ddelta (content.take k) + ddelta (content.drop k) = ddelta content := by
    rw [← ddelta_append, List.take_append_drop]
  omega

theorem processRepl_no_bs (s t : List Char) (h : '\\' ∉ s) :
    processRepl (s ++ t) = s ++ processRepl t := by
  induction s with
  | nil => rfl
  | cons c rest ih =>
    have hc : ¬ c = '\\' := fun hh => h (by simp [hh])
    rw [List.cons_append, processRepl_cons_ne c _ hc,
      ih fun hh => h (List.mem_cons_of_mem c hh)]
    rfl

theorem processRepl_escQ (cmd : List Char) (hbs : '\\' ∉ cmd) (t : List Char) :
    processRepl (escape cmd ++ t) = escape cmd ++ processRepl t := by
  induction cmd with
  | nil => rfl
  | cons c rest ih =>
    have hc : ¬ c = '\\' := fun hh => hbs (by simp [hh])
    have hrest : '\\' ∉ rest := fun hh => hbs (List.mem_cons_of_mem c hh)
    rw [escape_cons, if_neg hc]
    by_cases hq : c = '"'
    · subst hq
      rw [if_pos rfl]
      have hsh : (['\\', '"'] ++ escape rest) ++ t = '\\' :: '"' :: (escape rest ++ t) := by
        simp
      have hsh2 : (['\\', '"'] ++ escape rest) ++ processRepl t =
          '\\' :: '"' :: (escape rest ++ processRepl t) := by simp
      rw [hsh, hsh2, processRepl_bs_other '"' _ (by decide), ih hrest]
    · rw [if_neg hq]
      have hsh : ([c] ++ escape rest) ++ t = c :: (escape rest ++ t) := by simp
      have hsh2 : ([c] ++ escape rest) ++ processRepl t =
          c :: (escape rest ++ processRepl t) := by simp
      rw [hsh, hsh2, processRepl_cons_ne c _ hc, ih hrest]

theorem processRepl_launchLine (cmd : List Char) (hbs : '\\' ∉ cmd) :
    processRepl (launchLine (escape cmd)) = launchLine (escape cmd) := by
  have hsh : launchLine (escape cmd) =
      (loLit ++ ['\t', '\t', '"']) ++ (escape cmd ++ ['"']) := by
    simp [launchLine, List.append_assoc]
  rw [hsh, processRepl_no_bs _ _ (by decide), processRepl_escQ cmd hbs ['"']]
  rfl

theorem launchLine_append (esc x : List Char) :
    launchLine esc ++ x = loLit ++ ('\t' :: '\t' :: '"' :: (esc ++ '"' :: x)) := by
  simp [launchLine, List.append_assoc]

theorem launchLine_length (esc : List Char) : (launchLine esc).length = 19 + esc.length := by
  simp [launchLine, loLit]
  omega

theorem indent6_get : ∀ j, j < 6 → indent6[j]? = some '\t' := by decide

theorem newI_assoc (content : List Char) (k : Nat) (esc : List Char) :
    content.take k ++ insLine esc ++ content.drop k =
      (content.take k ++ indent6) ++
        (loLit ++ ('\t' :: '\t' :: '"' :: (esc ++ '"' :: ('\n' :: content.drop k)))) := by
  simp [insLine, launchLine, indent6, List.append_assoc]

theorem no_lit_in_P (content : List Char) (k : Nat) (t : List Char)
    (hk : k ≤ content.length)
    (hlit : ∀ m, ¬ loLit.isPrefixOf (content.drop m) = true) :
    ∀ i, i < k + 6 →
      ¬ loLit.isPrefixOf (((content.take k ++ indent6) ++ t).drop i) = true := by
  intro i hi hpre
  have hklen : (content.take k).length = k := by
    simp only [List.length_take]
    omega
  have hPlen : (content.take k ++ indent6).length = k + 6 := by
    simp [hklen, indent6]
  by_cases hcase : i + 15 ≤ k
  · have htk : ((content.take k ++ indent6) ++ t).take k = content.take k := by
      rw [List.take_append_eq_append_take, List.take_append_eq_append_take]
      rw [List.take_take]
      have h0 : k - (content.take k ++ indent6).length = 0 := by
        rw [hPlen]; omega
      have h1 : k - (content.take k).length = 0 := by
        rw [hklen]; omega
      rw [h0, h1, List.take_zero, List.take_zero, List.append_nil, List.append_nil]
      congr 1
      omega
    have hiff := prefixOf_congr_window ((content.take k ++ indent6) ++ t) content loLit i k
      (by rw [htk]) (by rw [loLit_length]; omega)
    exact hlit i (hiff.mp hpre)
  · push_neg at hcase
    by_cases hik : i ≤ k
    · have hget : ((content.take k ++ indent6) ++ t)[k]? = some '\t' := by
        rw [List.getElem?_append, if_pos (by omega : k < (content.take k ++ indent6).length)]
        rw [List.getElem?_append_right (by omega : (content.take k).length ≤ k)]
        have hz : k - (content.take k).length = 0 := by rw [hklen]; omega
        rw [hz]
        exact indent6_get 0 (by omega)
      have hocc := getElem?_of_occ loLit _ i k hpre hik (by rw [loLit_length]; omega)
      rw [hget] at hocc
      exact absurd (List.getElem?_mem hocc.symm) (by decide)
    · push_neg at hik
      have hget : ((content.take k ++ indent6) ++ t)[i]? = some '\t' := by
        rw [List.getElem?_append, if_pos (by omega : i < (content.take k ++ indent6).length)]
        rw [List.getElem?_append_right (by omega : (content.take k).length ≤ i)]
        have hz : i - (content.take k).length = i - k := by rw [hklen]
        rw [hz]
        exact indent6_get (i - k) (by omega)
      have hocc := getElem?_of_occ loLit _ i i hpre (le_refl i) (by rw [loLit_length]; omega)
      rw [hget] at hocc
      exact absurd (List.getElem?_mem hocc.symm) (by decide)

theorem no_match_tail (content : List Char) (k : Nat)
    (hlit : ∀ m, ¬ loLit.isPrefixOf (content.drop m) = true) :
    ∀ i, matchLO (('\n' :: content.drop k).drop i) = none := by
  intro i
  cases i with
  | zero =>
    refine matchLO_none_of_no_lit _ ?_
    intro hpre
    have hocc := getElem?_of_occ loLit ('\n' :: content.drop k) 0 0 hpre (le_refl 0)
      (by rw [loLit_length]; omega)
    have h2 : ('\n' :: content.drop k)[0]? = loLit[0 - 0]? := hocc
    rw [show (0 - 0 : Nat) = 0 from rfl,
      show loLit[0]? = some '"' from by decide] at h2
    simp only [List.getElem?_cons_zero] at h2
    injection h2 with hch
    exact absurd hch (by decide)
  | succ i' =>
    have hsh : ('\n' :: content.drop k).drop (i' + 1) = content.drop (k + i') := by
      rw [List.drop_succ_cons, List.drop_drop]
    rw [hsh]
    exact matchLO_none_of_no_lit _ (hlit (k + i'))

theorem reSub_newI_fixpoint (content : List Char) (k : Nat) (cmd : List Char)
    (hk : k ≤ content.length)
    (hbs : '\\' ∉ cmd)
    (hlit : ∀ m, ¬ loLit.isPrefixOf (content.drop m) = true) :
    reSubLO (processRepl (launchLine (escape cmd)))
        (content.take k ++ insLine (escape cmd) ++ content.drop k) =
      content.take k ++ insLine (escape cmd) ++ content.drop k := by
  rw [newI_assoc content k (escape cmd)]
  have hklen : (content.take k).length = k := by
    simp only [List.length_take]
    omega
  have hPlen : (content.take k ++ indent6).length = k + 6 := by
    simp [hklen, indent6]
  have hnm : ∀ i, i < (content.take k ++ indent6).length →
      matchLO (((content.take k ++ indent6) ++
        (loLit ++ ('\t' :: '\t' :: '"' :: (escape cmd ++ '"' :: ('\n' :: content.drop k))))).drop i) =
        none := by
    intro i hi
    exact matchLO_none_of_no_lit _ (no_lit_in_P content k _ hk hlit i (by omega))
  rw [reSub_prefix_none _ _ _ hnm]
  have hscan : scanVal (escape cmd ++ '"' :: ('\n' :: content.drop k)) =
      some (escape cmd).length := scanVal_esc cmd hbs _
  have hmatch := matchLO_canonical (escape cmd) ('\n' :: content.drop k) hscan
  rw [reSub_match _ _ _ hmatch]
  have hTdrop : (loLit ++
      ('\t' :: '\t' :: '"' :: (escape cmd ++ '"' :: ('\n' :: content.drop k)))).drop
        (19 + (escape cmd).length) = '\n' :: content.drop k := by
    rw [← launchLine_append, ← launchLine_length (escape cmd)]
    exact List.drop_left _ _
  rw [hTdrop]
  rw [reSub_id_of_none _ _ (no_match_tail content k hlit)]
  rw [processRepl_launchLine cmd hbs]
  rw [launchLine_append]

theorem take_len_pre (doc : List Char) (b : Nat) (hble : b + 1 ≤ doc.length) :
    (doc.take (b + 1)).length = b + 1 := by
  simp only [List.length_take]
  omega

theorem d1_take (doc x w : List Char) (b : Nat) (hble : b + 1 ≤ doc.length) :
    (doc.take (b + 1) ++ x ++ w).take (b + 1) = doc.take (b + 1) := by
  have hu := take_len_pre doc b hble
  rw [List.append_assoc, List.take_append_eq_append_take]
  rw [List.take_of_length_le (by omega)]
  rw [show b + 1 - (doc.take (b + 1)).length = 0 from by omega]
  rw [List.take_zero, List.append_nil]

theorem d1_drop_b (doc x w : List Char) (b : Nat) (hblt : b < doc.length) (c : Char)
    (hbget : doc[b]? = some c) :
    (doc.take (b + 1) ++ x ++ w).drop b = c :: (x ++ w) := by
  have hu := take_len_pre doc b (by omega)
  rw [List.append_assoc, List.drop_append_eq_append_drop]
  rw [show b - (doc.take (b + 1)).length = 0 from by omega, List.drop_zero]
  have hdb : (doc.take (b + 1)).drop b = [c] := by
    rw [List.drop_take, show b + 1 - b = 1 from by omega]
    rw [List.drop_eq_getElem_cons hblt]
    obtain ⟨hl, hv⟩ := List.getElem?_eq_some_iff.mp hbget
    simp [hv]
  rw [hdb]
  rfl

theorem d1_interior (doc x w : List Char) (b : Nat) (hble : b + 1 ≤ doc.length) :
    ((doc.take (b + 1) ++ x ++ w).take (b + 1 + x.length)).drop (b + 1) = x := by
  have hu := take_len_pre doc b hble
  rw [List.append_assoc, List.take_append_eq_append_take]
  rw [List.take_of_length_le (by omega)]
  rw [show b + 1 + x.length - (doc.take (b + 1)).length = x.length from by omega]
  rw [List.take_append_eq_append_take]
  rw [List.take_of_length_le (le_refl x.length)]
  rw [show x.length - x.length = 0 from by omega, List.take_zero, List.append_nil]
  rw [List.drop_append_eq_append_drop]
  rw [List.drop_of_length_le (by omega)]
  rw [show b + 1 - (doc.take (b + 1)).length = 0 from by omega, List.drop_zero,
    List.nil_append]

theorem d1_drop_end (doc x w : List Char) (b : Nat) (hble : b + 1 ≤ doc.length) :
    (doc.take (b + 1) ++ x ++ w).drop (b + 1 + x.length) = w := by
  have hu := take_len_pre doc b hble
  rw [List.append_assoc, List.drop_append_eq_append_drop]
  rw [List.drop_of_length_le (by omega)]
  rw [show b + 1 + x.length - (doc.take (b + 1)).length = x.length from by omega]
  rw [List.drop_append_eq_append_drop]
  rw [List.drop_of_length_le (le_refl x.length)]
  rw [show x.length - x.length = 0 from by omega, List.drop_zero, List.nil_append,
    List.nil_append]

/-- C1 (amended): idempotence holds on the insert-then-reapply path
under non-pathological inputs — the app id contains no opening brace,
the launch command contains no backslash and no braces, and the
located record's interior contains no occurrence of the literal
`"LaunchOptions"` — the first application inserts the canonical field
and the second application takes the replace path and reproduces the
same document byte for byte.  (Without these restrictions idempotence
fails, e.g. for a command containing a backslash.) -/
theorem c1_idempotent_insert (doc appId cmd : List Char) (b e : Nat)
    (hid : '\x7b' ∉ appId)
    (hc1 : '\\' ∉ cmd) (hc2 : '\x7b' ∉ cmd) (hc3 : '\x7d' ∉ cmd)
    (hloc : locateApp doc appId = some (b, e))
    (hlitf : pyFind ((doc.take e).drop (b + 1)) loLit 0 = none) :
    ∃ d1, modifyVdfCore doc appId cmd = some (d1, true) ∧
      modifyVdfCore d1 appId cmd = some (d1, false) := by
  obtain ⟨hbget, heget, hbe, helt, hIlen, hIdel, hIpre⟩ := locateApp_facts doc appId b e hloc
  obtain ⟨a, s, ha, hs, hb, he⟩ := locateApp_inv doc appId b e hloc
  have hlit : ∀ m, ¬ loLit.isPrefixOf (((doc.take e).drop (b + 1)).drop m) = true :=
    fun m => (pyFind_none _ _ 0).mp hlitf m (by omega)
  have hno : hasLO ((doc.take e).drop (b + 1)) = false :=
    hasLO_false_of_none _ fun p => matchLO_none_of_no_lit _ (hlit p)
  have heq1 := modifyVdfCore_insert doc appId cmd b e hloc hno
  refine ⟨_, heq1, ?_⟩
  have hkle : insertionPos ((doc.take e).drop (b + 1)) ≤ ((doc.take e).drop (b + 1)).length :=
    insertionPos_le _
  have hblen : b < doc.length := (List.getElem?_eq_some_iff.mp hbget).1
  have hble : b + 1 ≤ doc.length := by omega
  -- occurrence windows for find-stability
  obtain ⟨ha0, hapre, hamin⟩ := pyFind_spec doc appsLit 0 a ha
  obtain ⟨has, hspre, hsmin⟩ := pyFind_spec doc (appPat appId) a s hs
  obtain ⟨hsb0, hbpre, hbmin⟩ := pyFind_spec doc ['\x7b'] s b hb
  have hbrApp : '\x7b' ∉ appPat appId := by
    intro hmem
    unfold appPat at hmem
    rcases List.mem_cons.mp hmem with h | h
    · exact absurd h (by decide)
    · rcases List.mem_append.mp h with h2 | h2
      · exact hid h2
      · exact absurd (List.mem_singleton.mp h2) (by decide)
  have hab : a + appsLit.length ≤ b :=
    occ_before_char appsLit doc a b '\x7b' hapre (by omega) hbget (by decide)
  have hsb : s + (appPat appId).length ≤ b :=
    occ_before_char (appPat appId) doc s b '\x7b' hspre (by omega) hbget hbrApp
  -- shorthand for the first run's output
  set I := (doc.take e).drop (b + 1) with hIdef
  set k := insertionPos I with hkdef
  set newI := I.take k ++ insLine (escape cmd) ++ I.drop k with hnewIdef
  set d1 := doc.take (b + 1) ++ newI ++ doc.drop e with hd1def
  -- the take-(b+1) prefix of d1 is the take-(b+1) prefix of doc
  have htakeEq : d1.take (b + 1) = doc.take (b + 1) := d1_take doc newI (doc.drop e) b hble
  -- locate stability
  have hta : pyFind d1 appsLit 0 = some a :=
    pyFind_congr doc d1 appsLit 0 a (b + 1) htakeEq.symm (by omega) ha
  have hts : pyFind d1 (appPat appId) a = some s :=
    pyFind_congr doc d1 (appPat appId) a s (b + 1) htakeEq.symm (by omega) hs
  have htb : pyFind d1 ['\x7b'] s = some b :=
    pyFind_congr doc d1 ['\x7b'] s b (b + 1) htakeEq.symm (by simp) hb
  -- brace scan on d1
  have hcount1 : (insLine (escape cmd)).count '\x7b' = 0 :=
    count_insLine_brace cmd _ (Or.inl rfl) hc2
  have hcount2 : (insLine (escape cmd)).count '\x7d' = 0 :=
    count_insLine_brace cmd _ (Or.inr rfl) hc3
  have hpre2 : ∀ j, 0 ≤ ddelta (newI.take j) :=
    newI_prefix_nonneg I k (insLine (escape cmd)) hkle hIpre hcount1 hcount2
  have hdel2 : ddelta newI = 0 :=
    newI_ddelta I k (insLine (escape cmd)) hIdel hcount1 hcount2
  have hdropb : d1.drop b = '\x7b' :: (newI ++ doc.drop e) :=
    d1_drop_b doc newI (doc.drop e) b hblen '\x7b' hbget
  have hdrope : doc.drop e = '\x7d' :: doc.drop (e + 1) := by
    obtain ⟨hl, hv⟩ := List.getElem?_eq_some_iff.mp heget
    rw [List.drop_eq_getElem_cons hl, hv]
  have hnoclose : ∀ j, j < newI.length →
      ¬ (newI[j]? = some '\x7d' ∧ (1 : Int) + ddelta (newI.take j) = 1) := by
    rintro j hj ⟨hg, hd0⟩
    have hd00 : ddelta (newI.take j) = 0 := by omega
    have hstep : ddelta (newI.take (j + 1)) = -1 := by
      rw [List.take_succ, hg, ddelta_append, hd00]
      simp [ddelta_cons, ddelta_nil]
    have := hpre2 (j + 1)
    omega
  have hscan2 : braceScanR (d1.drop b) 0 = some (newI.length + 1) := by
    rw [hdropb, hdrope]
    have hstep : braceScanR ('\x7b' :: (newI ++ '\x7d' :: doc.drop (e + 1))) 0 =
        (braceScanR (newI ++ '\x7d' :: doc.drop (e + 1)) 1).map (· + 1) := by
      simp [braceScanR]
    rw [hstep, braceScanR_append newI _ 1 hnoclose]
    rw [show (1 : Int) + ddelta newI = 1 from by omega]
    rw [show braceScanR ('\x7d' :: doc.drop (e + 1)) 1 = some 0 from by simp [braceScanR]]
    simp
  have he2 : braceScan d1 b = some (b + 1 + newI.length) := by
    unfold braceScan
    rw [hscan2]
    simp only [Option.map_some']
    congr 1
    omega
  have hloc2 : locateApp d1 appId = some (b, b + 1 + newI.length) :=
    locateApp_eq d1 appId a s b _ hta hts htb he2
  -- the interior located in the second run is exactly the new interior
  have hI2 : (d1.take (b + 1 + newI.length)).drop (b + 1) = newI :=
    d1_interior doc newI (doc.drop e) b hble
  have hdropend : d1.drop (b + 1 + newI.length) = doc.drop e :=
    d1_drop_end doc newI (doc.drop e) b hble
  -- the second run takes the replace path
  have hmatch2 : matchLO (newI.drop ((I.take k ++ indent6).length)) =
      some (19 + (escape cmd).length) := by
    rw [hnewIdef, newI_assoc I k (escape cmd), List.drop_left]
    exact matchLO_canonical _ _ (scanVal_esc cmd hc1 _)
  have hasLO2 : hasLO newI = true := hasLO_of_match _ _ _ hmatch2
  have heq2 := modifyVdfCore_replace d1 appId cmd b (b + 1 + newI.length) hloc2
    (by rw [hI2]; exact hasLO2)
  rw [hI2, hdropend, htakeEq] at heq2
  have hfix : reSubLO (processRepl (launchLine (escape cmd))) newI = newI :=
    reSub_newI_fixpoint I k cmd hkle hc1 hlit
  rw [hfix] at heq2
  exact heq2

/-- Closed instance of `c1_idempotent_insert`: inserting into a clean
record and re-applying the same request reproduces the document. -/
theorem c1_idempotent_insert_witness :
    ∃ d1, modifyVdfCore "\"apps\"\x7b\"1\"\x7b\n\"name\" \"G\"\n\x7d\x7d".toList
        "1".toList "h".toList = some (d1, true) ∧
      modifyVdfCore d1 "1".toList "h".toList = some (d1, false) :=
  c1_idempotent_insert "\"apps\"\x7b\"1\"\x7b\n\"name\" \"G\"\n\x7d\x7d".toList
    "1".toList "h".toList 10 23 (by decide) (by decide) (by decide) (by decide)
    (by decide) (by decide)
